import Mathlib

/-!
# Verification of the JDAT core (files/crypto.py, files/jdat.py)

A shallow embedding of the JDAT block-file format and its per-block
authenticated-encryption subsystem, together with proofs of the documented
properties.

Conventions of the embedding:
* Python `str` values are modelled as `List Char` (a Python string is a
  sequence of Unicode code points; Lean `Char` carries exactly the valid
  Unicode scalar values, which is what CPython strings hold in practice).
* Python `bytes` values are modelled as `List Nat` with every element `< 256`.
* The external primitives used by `crypto.py` — `hashlib.sha256` and
  `AESGCM` from the `cryptography` package — are parameters of the model
  (`hash : List Nat → List Nat` and an `AEAD` structure); theorems assume of
  them exactly the contracts those libraries document.
* `os.urandom` outputs (salt, nonce) are explicit arguments.
* Python exceptions are modelled with `Except`; an exception raised mid-way
  through a method leaves the already-performed field assignments visible,
  which the embedding reflects by pairing each error with the file state at
  the raise point.
-/

/-! ## Python string helpers -/

/-- Whitespace recognised by Python's `str.strip` / `re` module's `\s`
(the ASCII whitespace characters plus the common Unicode line/space
separators that can appear in practice). -/
def pyIsSpace (c : Char) : Bool :=
  c = ' ' || c = '\t' || c = '\n' || c = '\r' || c = '\x0b' || c = '\x0c' ||
  c = '\x1c' || c = '\x1d' || c = '\x1e' || c = '\x1f' || c = '\x85' ||
  c = '\xa0' || c = ' ' || c = ' '

/-- ASCII decimal digit, as matched by `\d` on the inputs of interest. -/
def pyIsDigit (c : Char) : Bool := '0' ≤ c && c ≤ '9'

/-- Python `str.strip()`: drop whitespace from both ends. -/
def pyStrip (s : List Char) : List Char :=
  ((s.dropWhile pyIsSpace).reverse.dropWhile pyIsSpace).reverse

theorem dropWhile_eq_self_of_all {p : Char → Bool} {s : List Char}
    (h : ∀ c ∈ s, p c = false) : s.dropWhile p = s := by
  cases s with
  | nil => rfl
  | cons c cs =>
    have hc := h c (List.mem_cons_self _ _)
    simp [List.dropWhile, hc]

/-- Stripping a list of non-whitespace characters is the identity. -/
theorem pyStrip_eq_self_of_all {s : List Char}
    (h : ∀ c ∈ s, pyIsSpace c = false) : pyStrip s = s := by
  unfold pyStrip
  rw [dropWhile_eq_self_of_all h, dropWhile_eq_self_of_all, List.reverse_reverse]
  intro c hc
  exact h c (List.mem_reverse.mp hc)

/-! ## UTF-8 codec

`crypto.py` calls `str.encode('utf-8')` and `bytes.decode('utf-8')`.
These are the standard strict UTF-8 encoder and decoder. -/

/-- Encode one Unicode scalar value to UTF-8 bytes. -/
def utf8EncodeChar (n : Nat) : List Nat :=
  if n < 0x80 then [n]
  else if n < 0x800 then [0xC0 + n / 64, 0x80 + n % 64]
  else if n < 0x10000 then [0xE0 + n / 4096, 0x80 + n / 64 % 64, 0x80 + n % 64]
  else [0xF0 + n / 262144, 0x80 + n / 4096 % 64, 0x80 + n / 64 % 64, 0x80 + n % 64]

/-- `str.encode('utf-8')`. -/
def utf8Encode : List Char → List Nat
  | [] => []
  | c :: cs => utf8EncodeChar c.toNat ++ utf8Encode cs

/-- One step of strict UTF-8 decoding: given the lead byte and the bytes
after it, return the decoded scalar value and the remaining bytes.
Rejects bad lead/continuation bytes, overlong forms, surrogates and
out-of-range values, as CPython's strict `bytes.decode('utf-8')` does. -/
def utf8DecodeStep (b1 : Nat) (rest : List Nat) : Option (Nat × List Nat) :=
  if b1 < 0x80 then some (b1, rest)
  else if b1 < 0xC2 then none
  else if b1 < 0xE0 then
    match rest with
    | b2 :: rest2 =>
      if 0x80 ≤ b2 ∧ b2 < 0xC0 then some ((b1 - 0xC0) * 64 + (b2 - 0x80), rest2)
      else none
    | [] => none
  else if b1 < 0xF0 then
    match rest with
    | b2 :: b3 :: rest3 =>
      if (0x80 ≤ b2 ∧ b2 < 0xC0) ∧ (0x80 ≤ b3 ∧ b3 < 0xC0) then
        if 0x800 ≤ (b1 - 0xE0) * 4096 + (b2 - 0x80) * 64 + (b3 - 0x80) ∧
           ((b1 - 0xE0) * 4096 + (b2 - 0x80) * 64 + (b3 - 0x80) < 0xD800 ∨
            0xE000 ≤ (b1 - 0xE0) * 4096 + (b2 - 0x80) * 64 + (b3 - 0x80)) then
          some ((b1 - 0xE0) * 4096 + (b2 - 0x80) * 64 + (b3 - 0x80), rest3)
        else none
      else none
    | _ => none
  else if b1 < 0xF5 then
    match rest with
    | b2 :: b3 :: b4 :: rest4 =>
      if (0x80 ≤ b2 ∧ b2 < 0xC0) ∧ (0x80 ≤ b3 ∧ b3 < 0xC0) ∧ (0x80 ≤ b4 ∧ b4 < 0xC0) then
        if 0x10000 ≤ (b1 - 0xF0) * 262144 + (b2 - 0x80) * 4096 + (b3 - 0x80) * 64 + (b4 - 0x80) ∧
           (b1 - 0xF0) * 262144 + (b2 - 0x80) * 4096 + (b3 - 0x80) * 64 + (b4 - 0x80) < 0x110000 then
          some ((b1 - 0xF0) * 262144 + (b2 - 0x80) * 4096 + (b3 - 0x80) * 64 + (b4 - 0x80), rest4)
        else none
      else none
    | _ => none
  else none

theorem utf8DecodeStep_shrink {b1 : Nat} {rest rest' : List Nat} {n : Nat}
    (h : utf8DecodeStep b1 rest = some (n, rest')) : rest'.length ≤ rest.length := by
  unfold utf8DecodeStep at h
  repeat' split at h
  all_goals simp_all
  all_goals omega

/-- Fuel-driven worker for `utf8Decode` (the fuel makes the recursion
structural so that concrete instances compute inside the kernel). -/
def utf8DecodeAux : Nat → List Nat → Option (List Char)
  | 0, _ => none
  | _ + 1, [] => some []
  | fuel + 1, b1 :: rest =>
    match utf8DecodeStep b1 rest with
    | none => none
    | some (n, rest') => (utf8DecodeAux fuel rest').map (fun s => Char.ofNat n :: s)

/-- `bytes.decode('utf-8')`, strict (raises `UnicodeDecodeError` in Python,
`none` here). -/
def utf8Decode (s : List Nat) : Option (List Char) :=
  utf8DecodeAux (s.length + 1) s

theorem utf8DecodeAux_mono :
    ∀ f1 : Nat, ∀ f2 : Nat, ∀ s : List Nat, s.length < f1 → s.length < f2 →
      utf8DecodeAux f1 s = utf8DecodeAux f2 s := by
  intro f1
  induction f1 using Nat.strong_induction_on with
  | _ f1 ih =>
    intro f2 s h1 h2
    match f1, f2, s with
    | _ + 1, _ + 1, [] => rfl
    | g1 + 1, g2 + 1, b1 :: rest =>
      show (match utf8DecodeStep b1 rest with
            | none => none
            | some (n, rest') => (utf8DecodeAux g1 rest').map (fun s => Char.ofNat n :: s)) =
           (match utf8DecodeStep b1 rest with
            | none => none
            | some (n, rest') => (utf8DecodeAux g2 rest').map (fun s => Char.ofNat n :: s))
      cases hstep : utf8DecodeStep b1 rest with
      | none => rfl
      | some p =>
        obtain ⟨n, rest'⟩ := p
        have hle := utf8DecodeStep_shrink hstep
        simp only []
        rw [ih g1 (by omega) g2 rest' (by simp at h1 ⊢; omega) (by simp at h2 ⊢; omega)]

theorem utf8Decode_cons (b1 : Nat) (rest : List Nat) :
    utf8Decode (b1 :: rest) =
      match utf8DecodeStep b1 rest with
      | none => none
      | some (n, rest') => (utf8Decode rest').map (fun s => Char.ofNat n :: s) := by
  show utf8DecodeAux (rest.length + 2) (b1 :: rest) = _
  show (match utf8DecodeStep b1 rest with
        | none => none
        | some (n, rest') => (utf8DecodeAux (rest.length + 1) rest').map
            (fun s => Char.ofNat n :: s)) = _
  cases hstep : utf8DecodeStep b1 rest with
  | none => rfl
  | some p =>
    obtain ⟨n, rest'⟩ := p
    have hle := utf8DecodeStep_shrink hstep
    simp only []
    rw [utf8DecodeAux_mono (rest.length + 1) (rest'.length + 1) rest' (by omega) (by omega)]
    rfl

theorem char_toNat_valid (c : Char) :
    c.toNat < 0xD800 ∨ (0xDFFF < c.toNat ∧ c.toNat < 0x110000) := by
  have h := c.valid
  unfold UInt32.isValidChar Nat.isValidChar at h
  exact h

theorem utf8EncodeChar_bytes {n : Nat} (hn : n < 0x110000) :
    ∀ b ∈ utf8EncodeChar n, b < 256 := by
  intro b hb
  unfold utf8EncodeChar at hb
  split at hb
  · simp at hb; omega
  · split at hb
    · simp at hb
      rcases hb with h | h <;> omega
    · split at hb
      · simp at hb
        rcases hb with h | h | h <;> omega
      · simp at hb
        rcases hb with h | h | h | h <;> omega

theorem utf8Encode_bytes (s : List Char) : ∀ b ∈ utf8Encode s, b < 256 := by
  induction s with
  | nil => intro b hb; simp [utf8Encode] at hb
  | cons c cs ih =>
    intro b hb
    simp only [utf8Encode, List.mem_append] at hb
    rcases hb with h | h
    · have hc : c.toNat < 0x110000 := by
        rcases char_toNat_valid c with h' | h' <;> omega
      exact utf8EncodeChar_bytes hc b h
    · exact ih b h

theorem utf8DecodeStep_encode (c : Char) (bs : List Nat) :
    ∃ lead conts, utf8EncodeChar c.toNat = lead :: conts ∧
      utf8DecodeStep lead (conts ++ bs) = some (c.toNat, bs) := by
  have hv := char_toNat_valid c
  set n := c.toNat with hn
  by_cases h1 : n < 0x80
  · refine ⟨n, [], by rw [utf8EncodeChar, if_pos h1], ?_⟩
    rw [List.nil_append]
    unfold utf8DecodeStep
    rw [if_pos h1]
  · by_cases h2 : n < 0x800
    · refine ⟨0xC0 + n / 64, [0x80 + n % 64], by rw [utf8EncodeChar, if_neg h1, if_pos h2], ?_⟩
      rw [List.cons_append, List.nil_append]
      unfold utf8DecodeStep
      rw [if_neg (by omega), if_neg (by omega), if_pos (by omega)]
      simp only []
      rw [if_pos (by omega : (0x80:Nat) ≤ 0x80 + n % 64 ∧ 0x80 + n % 64 < 0xC0)]
      have harg : (0xC0 + n / 64 - 0xC0) * 64 + (0x80 + n % 64 - 0x80) = n := by omega
      rw [harg]
    · by_cases h3 : n < 0x10000
      · refine ⟨0xE0 + n / 4096, [0x80 + n / 64 % 64, 0x80 + n % 64],
          by rw [utf8EncodeChar, if_neg h1, if_neg h2, if_pos h3], ?_⟩
        rw [List.cons_append, List.cons_append, List.nil_append]
        unfold utf8DecodeStep
        rw [if_neg (by omega), if_neg (by omega), if_neg (by omega), if_pos (by omega)]
        simp only []
        rw [if_pos (by constructor <;> omega)]
        have harg : (0xE0 + n / 4096 - 0xE0) * 4096 + (0x80 + n / 64 % 64 - 0x80) * 64 +
            (0x80 + n % 64 - 0x80) = n := by omega
        rw [harg]
        rw [if_pos (by constructor <;> omega)]
      · have h4 : n < 0x110000 := by omega
        refine ⟨0xF0 + n / 262144, [0x80 + n / 4096 % 64, 0x80 + n / 64 % 64, 0x80 + n % 64],
          by rw [utf8EncodeChar, if_neg h1, if_neg h2, if_neg h3], ?_⟩
        rw [List.cons_append, List.cons_append, List.cons_append, List.nil_append]
        unfold utf8DecodeStep
        rw [if_neg (by omega), if_neg (by omega), if_neg (by omega), if_neg (by omega),
            if_pos (by omega)]
        simp only []
        rw [if_pos (by refine ⟨⟨?_, ?_⟩, ⟨?_, ?_⟩, ?_, ?_⟩ <;> omega)]
        have harg : (0xF0 + n / 262144 - 0xF0) * 262144 + (0x80 + n / 4096 % 64 - 0x80) * 4096 +
            (0x80 + n / 64 % 64 - 0x80) * 64 + (0x80 + n % 64 - 0x80) = n := by omega
        rw [harg]
        rw [if_pos (by constructor <;> omega)]

theorem utf8Decode_encodeChar (c : Char) (bs : List Nat) :
    utf8Decode (utf8EncodeChar c.toNat ++ bs) = (utf8Decode bs).map (fun s => c :: s) := by
  obtain ⟨lead, conts, henc, hstep⟩ := utf8DecodeStep_encode c bs
  rw [henc, List.cons_append, utf8Decode_cons, hstep]
  simp only [Char.ofNat_toNat]

/-- The UTF-8 round trip: decoding an encoded string restores it. -/
theorem utf8Decode_utf8Encode (s : List Char) : utf8Decode (utf8Encode s) = some s := by
  induction s with
  | nil => rfl
  | cons c cs ih =>
    show utf8Decode (utf8EncodeChar c.toNat ++ utf8Encode cs) = some (c :: cs)
    rw [utf8Decode_encodeChar, ih, Option.map_some']

/-! ## Base64 codec

`crypto.py` uses `base64.b64encode(raw).decode('ascii')` and
`base64.b64decode(text)`.  Standard alphabet, `=`-padding.  CPython's
decoder first discards characters outside the alphabet/padding set, then
decodes in groups of four; malformed group structure raises
`binascii.Error` (`none` here).  (Where CPython truncates at interior
padding, this model rejects; no claim distinguishes the two, since both
surface as a decode failure or feed garbage to the AEAD, which rejects.) -/

def b64Alphabet : List Char :=
  ['A', 'B', 'C', 'D', 'E', 'F', 'G', 'H', 'I', 'J', 'K', 'L', 'M',
   'N', 'O', 'P', 'Q', 'R', 'S', 'T', 'U', 'V', 'W', 'X', 'Y', 'Z',
   'a', 'b', 'c', 'd', 'e', 'f', 'g', 'h', 'i', 'j', 'k', 'l', 'm',
   'n', 'o', 'p', 'q', 'r', 's', 't', 'u', 'v', 'w', 'x', 'y', 'z',
   '0', '1', '2', '3', '4', '5', '6', '7', '8', '9', '+', '/']

def b64Char (n : Nat) : Char := b64Alphabet.getD n 'A'

def b64IndexChar (c : Char) : Option Nat := b64Alphabet.findIdx? (fun x => x = c)

/-- `base64.b64encode`: three bytes to four characters, `=`-padded tail. -/
def b64encode : List Nat → List Char
  | [] => []
  | [a] => [b64Char (a / 4), b64Char (a % 4 * 16), '=', '=']
  | [a, b] => [b64Char (a / 4), b64Char (a % 4 * 16 + b / 16), b64Char (b % 16 * 4), '=']
  | a :: b :: c :: rest =>
    b64Char (a / 4) :: b64Char (a % 4 * 16 + b / 16) ::
    b64Char (b % 16 * 4 + c / 64) :: b64Char (c % 64) :: b64encode rest

/-- Decode the filtered character stream in groups of four. -/
def b64decodeGroups : List Char → Option (List Nat)
  | [] => some []
  | c1 :: c2 :: c3 :: c4 :: rest =>
    match b64IndexChar c1, b64IndexChar c2 with
    | some x1, some x2 =>
      if c3 = '=' then
        if c4 = '=' ∧ rest = [] then some [x1 * 4 + x2 / 16] else none
      else
        match b64IndexChar c3 with
        | some x3 =>
          if c4 = '=' then
            if rest = [] then some [x1 * 4 + x2 / 16, x2 % 16 * 16 + x3 / 4] else none
          else
            match b64IndexChar c4, b64decodeGroups rest with
            | some x4, some bs =>
              some ((x1 * 4 + x2 / 16) :: (x2 % 16 * 16 + x3 / 4) :: (x3 % 4 * 64 + x4) :: bs)
            | _, _ => none
        | none => none
    | _, _ => none
  | _ => none

/-- `base64.b64decode` (default non-validating mode): discard foreign
characters, then decode the groups. -/
def b64decode (s : List Char) : Option (List Nat) :=
  b64decodeGroups (s.filter (fun c => (b64IndexChar c).isSome || c = '='))

theorem b64IndexChar_b64Char : ∀ n : Nat, n < 64 → b64IndexChar (b64Char n) = some n := by
  decide

theorem b64Char_ne_eq : ∀ n : Nat, n < 64 → (b64Char n = '=') = False := by
  decide

theorem b64Char_mem_alphabet : ∀ n : Nat, n < 64 → b64Char n ∈ b64Alphabet := by
  decide

theorem alphabet_not_space : ∀ c ∈ b64Alphabet, pyIsSpace c = false := by decide

theorem alphabet_isSome : ∀ c ∈ b64Alphabet, (b64IndexChar c).isSome = true := by decide

theorem eq_not_space : pyIsSpace '=' = false := by decide

/-- Every character of a base64 encoding is an alphabet character or `=`. -/
theorem b64encode_chars : ∀ (bs : List Nat), (∀ b ∈ bs, b < 256) →
    ∀ c ∈ b64encode bs, c ∈ b64Alphabet ∨ c = '='
  | [], _ => by intro c hc; simp [b64encode] at hc
  | [a], h => by
    intro c hc
    have ha : a < 256 := h a (by simp)
    have h1 : a / 4 < 64 := by omega
    have h2 : a % 4 * 16 < 64 := by omega
    simp only [b64encode, List.mem_cons, List.not_mem_nil, or_false] at hc
    rcases hc with h' | h' | h' | h'
    · exact Or.inl (h' ▸ b64Char_mem_alphabet _ h1)
    · exact Or.inl (h' ▸ b64Char_mem_alphabet _ h2)
    · exact Or.inr h'
    · exact Or.inr h'
  | [a, b], h => by
    intro c hc
    have ha : a < 256 := h a (by simp)
    have hb : b < 256 := h b (by simp)
    have h1 : a / 4 < 64 := by omega
    have h2 : a % 4 * 16 + b / 16 < 64 := by omega
    have h3 : b % 16 * 4 < 64 := by omega
    simp only [b64encode, List.mem_cons, List.not_mem_nil, or_false] at hc
    rcases hc with h' | h' | h' | h'
    · exact Or.inl (h' ▸ b64Char_mem_alphabet _ h1)
    · exact Or.inl (h' ▸ b64Char_mem_alphabet _ h2)
    · exact Or.inl (h' ▸ b64Char_mem_alphabet _ h3)
    · exact Or.inr h'
  | a :: b :: c0 :: rest, h => by
    intro c hc
    have ha : a < 256 := h a (by simp)
    have hb : b < 256 := h b (by simp)
    have hc0 : c0 < 256 := h c0 (by simp)
    have h1 : a / 4 < 64 := by omega
    have h2 : a % 4 * 16 + b / 16 < 64 := by omega
    have h3 : b % 16 * 4 + c0 / 64 < 64 := by omega
    have h4 : c0 % 64 < 64 := by omega
    have hrest : ∀ x ∈ rest, x < 256 := fun x hx => h x (by simp [hx])
    rw [b64encode] at hc
    simp only [List.mem_cons] at hc
    rcases hc with h' | h' | h' | h' | h'
    · exact Or.inl (h' ▸ b64Char_mem_alphabet _ h1)
    · exact Or.inl (h' ▸ b64Char_mem_alphabet _ h2)
    · exact Or.inl (h' ▸ b64Char_mem_alphabet _ h3)
    · exact Or.inl (h' ▸ b64Char_mem_alphabet _ h4)
    · exact b64encode_chars rest hrest c h'

/-- No character of a base64 encoding is whitespace. -/
theorem b64encode_no_space (bs : List Nat) (h : ∀ b ∈ bs, b < 256) :
    ∀ c ∈ b64encode bs, pyIsSpace c = false := by
  intro c hc
  rcases b64encode_chars bs h c hc with h' | h'
  · exact alphabet_not_space c h'
  · rw [h']; exact eq_not_space

/-- Filtering a base64 encoding for alphabet/padding characters keeps it intact. -/
theorem b64encode_filter (bs : List Nat) (h : ∀ b ∈ bs, b < 256) :
    (b64encode bs).filter (fun c => (b64IndexChar c).isSome || c = '=') = b64encode bs := by
  apply List.filter_eq_self.mpr
  intro c hc
  rcases b64encode_chars bs h c hc with h' | h'
  · simp [alphabet_isSome c h']
  · simp [h']

/-- The base64 round trip: decoding an encoding restores the bytes. -/
theorem b64decodeGroups_encode : ∀ (bs : List Nat), (∀ b ∈ bs, b < 256) →
    b64decodeGroups (b64encode bs) = some bs
  | [], _ => rfl
  | [a], h => by
    have ha : a < 256 := h a (by simp)
    have h1 : a / 4 < 64 := by omega
    have h2 : a % 4 * 16 < 64 := by omega
    rw [b64encode, b64decodeGroups, b64IndexChar_b64Char _ h1, b64IndexChar_b64Char _ h2]
    simp only [and_self, if_true]
    have : a / 4 * 4 + a % 4 * 16 / 16 = a := by omega
    rw [this]
  | [a, b], h => by
    have ha : a < 256 := h a (by simp)
    have hb : b < 256 := h b (by simp)
    have h1 : a / 4 < 64 := by omega
    have h2 : a % 4 * 16 + b / 16 < 64 := by omega
    have h3 : b % 16 * 4 < 64 := by omega
    rw [b64encode, b64decodeGroups, b64IndexChar_b64Char _ h1, b64IndexChar_b64Char _ h2]
    simp only []
    rw [if_neg (by simp [b64Char_ne_eq _ h3]), b64IndexChar_b64Char _ h3]
    simp only [if_true]
    have e1 : a / 4 * 4 + (a % 4 * 16 + b / 16) / 16 = a := by omega
    have e2 : (a % 4 * 16 + b / 16) % 16 * 16 + b % 16 * 4 / 4 = b := by omega
    rw [e1, e2]
  | a :: b :: c :: rest, h => by
    have ha : a < 256 := h a (by simp)
    have hb : b < 256 := h b (by simp)
    have hc : c < 256 := h c (by simp)
    have h1 : a / 4 < 64 := by omega
    have h2 : a % 4 * 16 + b / 16 < 64 := by omega
    have h3 : b % 16 * 4 + c / 64 < 64 := by omega
    have h4 : c % 64 < 64 := by omega
    have hrest : ∀ x ∈ rest, x < 256 := fun x hx => h x (by simp [hx])
    rw [b64encode, b64decodeGroups, b64IndexChar_b64Char _ h1, b64IndexChar_b64Char _ h2]
    simp only []
    rw [if_neg (by simp [b64Char_ne_eq _ h3]), b64IndexChar_b64Char _ h3]
    simp only []
    rw [if_neg (by simp [b64Char_ne_eq _ h4]), b64IndexChar_b64Char _ h4,
        b64decodeGroups_encode rest hrest]
    simp only []
    have e1 : a / 4 * 4 + (a % 4 * 16 + b / 16) / 16 = a := by omega
    have e2 : (a % 4 * 16 + b / 16) % 16 * 16 + (b % 16 * 4 + c / 64) / 4 = b := by omega
    have e3 : (b % 16 * 4 + c / 64) % 4 * 64 + c % 64 = c := by omega
    rw [e1, e2, e3]

theorem b64decode_encode (bs : List Nat) (h : ∀ b ∈ bs, b < 256) :
    b64decode (b64encode bs) = some bs := by
  rw [b64decode, b64encode_filter bs h, b64decodeGroups_encode bs h]

/-- Base64 encoding is injective on byte lists. -/
theorem b64encode_injective {bs1 bs2 : List Nat} (h1 : ∀ b ∈ bs1, b < 256)
    (h2 : ∀ b ∈ bs2, b < 256) (h : b64encode bs1 = b64encode bs2) : bs1 = bs2 := by
  have e1 := b64decode_encode bs1 h1
  have e2 := b64decode_encode bs2 h2
  rw [h, e2] at e1
  exact (Option.some.injEq _ _ ▸ e1).symm

/-- Stripping a base64 encoding is the identity. -/
theorem pyStrip_b64encode (bs : List Nat) (h : ∀ b ∈ bs, b < 256) :
    pyStrip (b64encode bs) = b64encode bs :=
  pyStrip_eq_self_of_all (b64encode_no_space bs h)

/-! ## The authenticated block cipher (`crypto.py`, class `JDATCrypto`)

`hashlib.sha256` and `AESGCM` are external library primitives; the model
takes them as parameters (`hash`, `AEAD`) and the theorems assume of them
exactly what those libraries document: GCM round-trip, authentication
(decryption under a different 256-bit key rejects), a 16-byte minimum
ciphertext (the appended tag), and byte-valued output.  `os.urandom`
outputs are the explicit `salt`/`nonce` arguments. -/

/-- Interface of `AESGCM`: `enc key nonce plaintext` and
`dec key nonce ciphertext` (`none` = `InvalidTag`). -/
structure AEAD where
  enc : List Nat → List Nat → List Nat → List Nat
  dec : List Nat → List Nat → List Nat → Option (List Nat)

/-- `JDATCrypto.SALT_SIZE`. -/
def SALT_SIZE : Nat := 16

/-- `JDATCrypto.NONCE_SIZE`. -/
def NONCE_SIZE : Nat := 12

/-- The reasons the body of `JDATCrypto.decrypt`'s `try` block can raise:
`binascii.Error` from `b64decode`, `InvalidTag` from `AESGCM.decrypt`,
`UnicodeDecodeError` from `bytes.decode`. -/
inductive DecFailure
  | decodeError
  | tagMismatch
  | unicodeError
deriving DecidableEq

/-- The single error the caller of `JDATCrypto.decrypt` can observe: the
`except Exception` handler re-raises every failure as one `ValueError`
("Mot de passe incorrect ou données corrompues"). -/
inductive CryptoError
  | authenticationFailed
deriving DecidableEq

/-- `JDATCrypto._derive_key`: SHA-256 over password bytes ++ salt. -/
def JDATCrypto.deriveKey (hash : List Nat → List Nat) (password : List Char)
    (salt : List Nat) : List Nat :=
  hash (utf8Encode password ++ salt)

/-- `JDATCrypto.encrypt`: AES-256-GCM, output `b64(salt ++ nonce ++ ct)`. -/
def JDATCrypto.encrypt (hash : List Nat → List Nat) (aead : AEAD)
    (salt nonce : List Nat) (plaintext password : List Char) : List Char :=
  let key := JDATCrypto.deriveKey hash password salt
  let ct := aead.enc key nonce (utf8Encode plaintext)
  b64encode (salt ++ nonce ++ ct)

/-- The `try` block of `JDATCrypto.decrypt`, with each failure point kept
distinct. -/
def JDATCrypto.decryptInner (hash : List Nat → List Nat) (aead : AEAD)
    (ciphertextB64 password : List Char) : Except DecFailure (List Char) :=
  match b64decode (pyStrip ciphertextB64) with
  | none => .error .decodeError
  | some raw =>
    let salt := raw.take SALT_SIZE
    let nonce := (raw.drop SALT_SIZE).take NONCE_SIZE
    let ct := raw.drop (SALT_SIZE + NONCE_SIZE)
    let key := JDATCrypto.deriveKey hash password salt
    match aead.dec key nonce ct with
    | none => .error .tagMismatch
    | some pt =>
      match utf8Decode pt with
      | none => .error .unicodeError
      | some s => .ok s

/-- `JDATCrypto.decrypt`: the `except Exception` handler collapses every
inner failure into the one undifferentiated `ValueError`. -/
def JDATCrypto.decrypt (hash : List Nat → List Nat) (aead : AEAD)
    (ciphertextB64 password : List Char) : Except CryptoError (List Char) :=
  match JDATCrypto.decryptInner hash aead ciphertextB64 password with
  | .ok s => .ok s
  | .error _ => .error .authenticationFailed

theorem append_bytes {l1 l2 : List Nat} (h1 : ∀ b ∈ l1, b < 256)
    (h2 : ∀ b ∈ l2, b < 256) : ∀ b ∈ l1 ++ l2, b < 256 := by
  intro b hb
  rcases List.mem_append.mp hb with h | h
  · exact h1 b h
  · exact h2 b h

theorem decryptInner_encrypt (hash : List Nat → List Nat) (aead : AEAD)
    (hCt : ∀ k n p, (∀ b ∈ k, b < 256) → (∀ b ∈ p, b < 256) → ∀ b ∈ aead.enc k n p, b < 256)
    (hHash : ∀ x, ∀ b ∈ hash x, b < 256)
    (salt nonce : List Nat) (hs : salt.length = SALT_SIZE) (hn : nonce.length = NONCE_SIZE)
    (hsb : ∀ b ∈ salt, b < 256) (hnb : ∀ b ∈ nonce, b < 256)
    (content password password2 : List Char) :
    JDATCrypto.decryptInner hash aead
        (JDATCrypto.encrypt hash aead salt nonce content password) password2 =
      match aead.dec (JDATCrypto.deriveKey hash password2 salt) nonce
          (aead.enc (JDATCrypto.deriveKey hash password salt) nonce (utf8Encode content)) with
      | none => .error .tagMismatch
      | some pt =>
        match utf8Decode pt with
        | none => .error .unicodeError
        | some s => .ok s := by
  have hkb : ∀ b ∈ JDATCrypto.deriveKey hash password salt, b < 256 := hHash _
  have hctb : ∀ b ∈ aead.enc (JDATCrypto.deriveKey hash password salt) nonce
      (utf8Encode content), b < 256 := hCt _ _ _ hkb (utf8Encode_bytes content)
  have hrawb : ∀ b ∈ salt ++ nonce ++ aead.enc (JDATCrypto.deriveKey hash password salt) nonce
      (utf8Encode content), b < 256 :=
    append_bytes (append_bytes hsb hnb) hctb
  rw [JDATCrypto.encrypt, JDATCrypto.decryptInner]
  simp only []
  rw [pyStrip_b64encode _ hrawb, b64decode_encode _ hrawb]
  have htake : (salt ++ nonce ++ aead.enc (JDATCrypto.deriveKey hash password salt) nonce
      (utf8Encode content)).take SALT_SIZE = salt := by
    rw [List.append_assoc, ← hs, List.take_left]
  have hdrop : (salt ++ nonce ++ aead.enc (JDATCrypto.deriveKey hash password salt) nonce
      (utf8Encode content)).drop SALT_SIZE = nonce ++ aead.enc
        (JDATCrypto.deriveKey hash password salt) nonce (utf8Encode content) := by
    rw [List.append_assoc, ← hs, List.drop_left]
  have htake2 : (nonce ++ aead.enc (JDATCrypto.deriveKey hash password salt) nonce
      (utf8Encode content)).take NONCE_SIZE = nonce := by
    rw [← hn, List.take_left]
  have hdrop2 : (salt ++ nonce ++ aead.enc (JDATCrypto.deriveKey hash password salt) nonce
      (utf8Encode content)).drop (SALT_SIZE + NONCE_SIZE) = aead.enc
        (JDATCrypto.deriveKey hash password salt) nonce (utf8Encode content) := by
    have : SALT_SIZE + NONCE_SIZE = (salt ++ nonce).length := by
      simp [hs, hn, SALT_SIZE, NONCE_SIZE]
    rw [this, List.drop_left]
  simp only [htake, hdrop, htake2, hdrop2]

/-- **C1.**  `decrypt(encrypt(content, pw), pw) == content`: with the same
password, decryption inverts encryption, for every content string, password,
and (well-sized) salt/nonce drawn by `os.urandom`, assuming of AES-GCM only
that decryption under the same key/nonce inverts encryption. -/
theorem decrypt_encrypt_roundtrip (hash : List Nat → List Nat) (aead : AEAD)
    (hRound : ∀ k n p, aead.dec k n (aead.enc k n p) = some p)
    (hCt : ∀ k n p, (∀ b ∈ k, b < 256) → (∀ b ∈ p, b < 256) → ∀ b ∈ aead.enc k n p, b < 256)
    (hHash : ∀ x, ∀ b ∈ hash x, b < 256)
    (salt nonce : List Nat) (hs : salt.length = SALT_SIZE) (hn : nonce.length = NONCE_SIZE)
    (hsb : ∀ b ∈ salt, b < 256) (hnb : ∀ b ∈ nonce, b < 256)
    (content password : List Char) :
    JDATCrypto.decrypt hash aead
      (JDATCrypto.encrypt hash aead salt nonce content password) password = .ok content := by
  rw [JDATCrypto.decrypt,
    decryptInner_encrypt hash aead hCt hHash salt nonce hs hn hsb hnb content password password,
    hRound]
  simp [utf8Decode_utf8Encode]

/-- **C2.**  Every decryption failure — wrong password (tag mismatch),
corrupted/truncated blob, base64 decoding failure, or a packed blob shorter
than salt+nonce — surfaces as the single undifferentiated
`AuthenticationFailed` error, and a wrong password never yields plaintext.
The three conjuncts: (1) the only observable error is
`authenticationFailed`; (2) decrypting under a password whose derived key
differs fails with it (assuming GCM authentication for 256-bit keys);
(3) a decoded blob shorter than `SALT_SIZE + NONCE_SIZE` fails with it
(assuming GCM rejects ciphertexts shorter than its 16-byte tag). -/
theorem decrypt_failures_single (hash : List Nat → List Nat) (aead : AEAD)
    (hLen : ∀ x, (hash x).length = 32)
    (hAuth : ∀ k k' n p, k.length = 32 → k'.length = 32 → k ≠ k' →
      aead.dec k' n (aead.enc k n p) = none)
    (hMin : ∀ k n c, c.length < 16 → aead.dec k n c = none)
    (hCt : ∀ k n p, (∀ b ∈ k, b < 256) → (∀ b ∈ p, b < 256) → ∀ b ∈ aead.enc k n p, b < 256)
    (hHash : ∀ x, ∀ b ∈ hash x, b < 256) :
    (∀ s pw e, JDATCrypto.decrypt hash aead s pw = .error e → e = .authenticationFailed) ∧
    (∀ content pw pw' salt nonce, salt.length = SALT_SIZE → nonce.length = NONCE_SIZE →
      (∀ b ∈ salt, b < 256) → (∀ b ∈ nonce, b < 256) →
      JDATCrypto.deriveKey hash pw' salt ≠ JDATCrypto.deriveKey hash pw salt →
      JDATCrypto.decrypt hash aead
        (JDATCrypto.encrypt hash aead salt nonce content pw) pw' =
        .error .authenticationFailed) ∧
    (∀ s pw raw, b64decode (pyStrip s) = some raw → raw.length < SALT_SIZE + NONCE_SIZE →
      JDATCrypto.decrypt hash aead s pw = .error .authenticationFailed) := by
  refine ⟨?_, ?_, ?_⟩
  · intro s pw e h
    cases e
    rfl
  · intro content pw pw' salt nonce hs hn hsb hnb hkey
    have hl1 : (JDATCrypto.deriveKey hash pw salt).length = 32 := hLen _
    have hl2 : (JDATCrypto.deriveKey hash pw' salt).length = 32 := hLen _
    rw [JDATCrypto.decrypt,
      decryptInner_encrypt hash aead hCt hHash salt nonce hs hn hsb hnb content pw pw',
      hAuth _ _ _ _ hl1 hl2 hkey.symm]
  · intro s pw raw hdec hlen
    have hct : raw.drop (SALT_SIZE + NONCE_SIZE) = [] :=
      List.drop_eq_nil_of_le (by omega)
    rw [JDATCrypto.decrypt, JDATCrypto.decryptInner, hdec]
    simp only [hct]
    rw [hMin _ _ _ (by simp)]

/-- **C9.**  Distinct freshly drawn (salt, nonce) pairs give distinct
ciphertext packages, even for identical plaintext and password: the
package embeds the salt and nonce, and base64 is injective. -/
theorem encrypt_fresh_randomness_distinct (hash : List Nat → List Nat) (aead : AEAD)
    (hCt : ∀ k n p, (∀ b ∈ k, b < 256) → (∀ b ∈ p, b < 256) → ∀ b ∈ aead.enc k n p, b < 256)
    (hHash : ∀ x, ∀ b ∈ hash x, b < 256)
    (salt1 nonce1 salt2 nonce2 : List Nat)
    (hs1 : salt1.length = SALT_SIZE) (hn1 : nonce1.length = NONCE_SIZE)
    (hs2 : salt2.length = SALT_SIZE) (hn2 : nonce2.length = NONCE_SIZE)
    (hsb1 : ∀ b ∈ salt1, b < 256) (hnb1 : ∀ b ∈ nonce1, b < 256)
    (hsb2 : ∀ b ∈ salt2, b < 256) (hnb2 : ∀ b ∈ nonce2, b < 256)
    (hfresh : (salt1, nonce1) ≠ (salt2, nonce2))
    (content password : List Char) :
    JDATCrypto.encrypt hash aead salt1 nonce1 content password ≠
      JDATCrypto.encrypt hash aead salt2 nonce2 content password := by
  intro heq
  rw [JDATCrypto.encrypt, JDATCrypto.encrypt] at heq
  have hb1 : ∀ b ∈ salt1 ++ nonce1 ++ aead.enc (JDATCrypto.deriveKey hash password salt1)
      nonce1 (utf8Encode content), b < 256 :=
    append_bytes (append_bytes hsb1 hnb1) (hCt _ _ _ (hHash _) (utf8Encode_bytes content))
  have hb2 : ∀ b ∈ salt2 ++ nonce2 ++ aead.enc (JDATCrypto.deriveKey hash password salt2)
      nonce2 (utf8Encode content), b < 256 :=
    append_bytes (append_bytes hsb2 hnb2) (hCt _ _ _ (hHash _) (utf8Encode_bytes content))
  have hraw := b64encode_injective hb1 hb2 heq
  have hsalt : salt1 = salt2 := by
    have h1 := congrArg (List.take SALT_SIZE) hraw
    rwa [List.append_assoc, List.append_assoc, ← hs1, List.take_left, hs1, ← hs2,
      List.take_left] at h1
  have hnonce : nonce1 = nonce2 := by
    have h1 := congrArg (List.drop SALT_SIZE) hraw
    rw [List.append_assoc, List.append_assoc, ← hs1, List.drop_left, hs1, ← hs2,
      List.drop_left] at h1
    have h2 := congrArg (List.take NONCE_SIZE) h1
    rwa [← hn1, List.take_left, hn1, ← hn2, List.take_left] at h2
  exact hfresh (by rw [hsalt, hnonce])

/-! ## A concrete AEAD instance for witnesses

A toy cipher satisfying the assumed AES-GCM contracts (round trip,
key authentication for 256-bit keys, 16-byte minimum ciphertext, byte
output): the "tag" is the 32-byte key itself, appended to the plaintext. -/

/-- Pad/truncate a key to exactly 32 bytes. -/
def tag32 (k : List Nat) : List Nat := (k ++ List.replicate 32 0).take 32

def toyAead : AEAD where
  enc := fun k _ p => p ++ tag32 k
  dec := fun k _ c =>
    if 32 ≤ c.length ∧ c.drop (c.length - 32) = tag32 k then some (c.take (c.length - 32))
    else none

/-- A stand-in for SHA-256: reduce bytes mod 256 and pad to 32 bytes. -/
def toyHash (x : List Nat) : List Nat := tag32 (x.map (fun b => b % 256))

theorem tag32_length (k : List Nat) : (tag32 k).length = 32 := by
  simp [tag32]

theorem tag32_eq_self {k : List Nat} (h : k.length = 32) : tag32 k = k := by
  rw [tag32, ← h, List.take_left]

theorem tag32_bytes {k : List Nat} (h : ∀ b ∈ k, b < 256) : ∀ b ∈ tag32 k, b < 256 := by
  intro b hb
  have := List.mem_of_mem_take hb
  rcases List.mem_append.mp this with h' | h'
  · exact h b h'
  · have := List.eq_of_mem_replicate h'
    omega

theorem toyAead_round : ∀ k n p, toyAead.dec k n (toyAead.enc k n p) = some p := by
  intro k n p
  show (if 32 ≤ (p ++ tag32 k).length ∧
      (p ++ tag32 k).drop ((p ++ tag32 k).length - 32) = tag32 k then
      some ((p ++ tag32 k).take ((p ++ tag32 k).length - 32)) else none) = some p
  have hlen : (p ++ tag32 k).length = p.length + 32 := by simp [tag32_length]
  have hm : (p ++ tag32 k).length - 32 = p.length := by omega
  rw [hm]
  rw [if_pos ⟨by omega, List.drop_left p (tag32 k)⟩, List.take_left]

theorem toyAead_auth : ∀ k k' n p, k.length = 32 → k'.length = 32 → k ≠ k' →
    toyAead.dec k' n (toyAead.enc k n p) = none := by
  intro k k' n p hk hk' hne
  show (if 32 ≤ (p ++ tag32 k).length ∧
      (p ++ tag32 k).drop ((p ++ tag32 k).length - 32) = tag32 k' then
      some ((p ++ tag32 k).take ((p ++ tag32 k).length - 32)) else none) = none
  have hlen : (p ++ tag32 k).length = p.length + 32 := by simp [tag32_length]
  have hm : (p ++ tag32 k).length - 32 = p.length := by omega
  rw [hm]
  rw [if_neg]
  intro hcon
  rw [List.drop_left p (tag32 k), tag32_eq_self hk, tag32_eq_self hk'] at hcon
  exact hne hcon.2

theorem toyAead_min : ∀ k n c, c.length < 16 → toyAead.dec k n c = none := by
  intro k n c hc
  show (if 32 ≤ c.length ∧ c.drop (c.length - 32) = tag32 k then
      some (c.take (c.length - 32)) else none) = none
  rw [if_neg]
  intro hcon
  omega

theorem toyAead_bytes : ∀ k n p, (∀ b ∈ k, b < 256) → (∀ b ∈ p, b < 256) →
    ∀ b ∈ toyAead.enc k n p, b < 256 := by
  intro k n p hk hp
  exact append_bytes hp (tag32_bytes hk)

theorem toyHash_length : ∀ x, (toyHash x).length = 32 := fun _ => tag32_length _

theorem toyHash_bytes : ∀ x, ∀ b ∈ toyHash x, b < 256 := by
  intro x b hb
  refine tag32_bytes ?_ b hb
  intro b' hb'
  obtain ⟨a, _, ha⟩ := List.mem_map.mp hb'
  omega

/-- Witness for `decrypt_encrypt_roundtrip` at a concrete instance and
concrete inputs. -/
theorem decrypt_encrypt_roundtrip_witness :
    JDATCrypto.decrypt toyHash toyAead
      (JDATCrypto.encrypt toyHash toyAead (List.replicate 16 3) (List.replicate 12 7)
        ['h', 'i'] ['p', 'w']) ['p', 'w'] = .ok ['h', 'i'] :=
  decrypt_encrypt_roundtrip toyHash toyAead toyAead_round toyAead_bytes toyHash_bytes
    (List.replicate 16 3) (List.replicate 12 7) (by decide) (by decide)
    (by intro b hb; have := List.eq_of_mem_replicate hb; omega)
    (by intro b hb; have := List.eq_of_mem_replicate hb; omega)
    ['h', 'i'] ['p', 'w']

/-- Witness for `decrypt_failures_single`: decrypting under a password with
a different derived key fails with `authenticationFailed`. -/
theorem decrypt_failures_single_witness :
    JDATCrypto.decrypt toyHash toyAead
      (JDATCrypto.encrypt toyHash toyAead (List.replicate 16 3) (List.replicate 12 7)
        ['h', 'i'] ['a']) ['b'] = .error .authenticationFailed :=
  (decrypt_failures_single toyHash toyAead toyHash_length toyAead_auth toyAead_min
    toyAead_bytes toyHash_bytes).2.1
    ['h', 'i'] ['a'] ['b'] (List.replicate 16 3) (List.replicate 12 7)
    (by decide) (by decide)
    (by intro b hb; have := List.eq_of_mem_replicate hb; omega)
    (by intro b hb; have := List.eq_of_mem_replicate hb; omega)
    (by decide)

/-- Witness for `encrypt_fresh_randomness_distinct` at concrete distinct
salts. -/
theorem encrypt_fresh_randomness_distinct_witness :
    JDATCrypto.encrypt toyHash toyAead (List.replicate 16 3) (List.replicate 12 7)
        ['h', 'i'] ['p', 'w'] ≠
      JDATCrypto.encrypt toyHash toyAead (4 :: List.replicate 15 3) (List.replicate 12 7)
        ['h', 'i'] ['p', 'w'] :=
  encrypt_fresh_randomness_distinct toyHash toyAead toyAead_bytes toyHash_bytes
    (List.replicate 16 3) (List.replicate 12 7) (4 :: List.replicate 15 3) (List.replicate 12 7)
    (by decide) (by decide) (by decide) (by decide)
    (by intro b hb; have := List.eq_of_mem_replicate hb; omega)
    (by intro b hb; have := List.eq_of_mem_replicate hb; omega)
    (by intro b hb; rcases List.mem_cons.mp hb with h | h;
        · omega
        · have := List.eq_of_mem_replicate h; omega)
    (by intro b hb; have := List.eq_of_mem_replicate hb; omega)
    (by decide)
    ['h', 'i'] ['p', 'w']

/-! ## The block model (`jdat.py`, class `JDATBlock`)

Fields: `name`, `link`, `type` (here `btype`), `content`, `encrypted`,
and the lazily-built cache `_data` (here `data`), an insertion-ordered
mapping modelled as an association list — Python 3.7+ `dict` semantics:
iteration follows insertion order, and assigning to an existing key
overwrites its value in place. -/

/-- Python line-break characters recognised by `str.splitlines`. -/
def pyIsLineBreak (c : Char) : Bool :=
  c = '\n' || c = '\r' || c = '\x0b' || c = '\x0c' || c = '\x1c' || c = '\x1d' ||
  c = '\x1e' || c = '\x85' || c = ' ' || c = ' '

/-- `str.splitlines()` (no `keepends`). -/
def pySplitlinesAux : List Char → List Char → List (List Char)
  | acc, [] => if acc = [] then [] else [acc.reverse]
  | acc, '\r' :: '\n' :: rest => acc.reverse :: pySplitlinesAux [] rest
  | acc, c :: rest =>
    if pyIsLineBreak c then acc.reverse :: pySplitlinesAux [] rest
    else pySplitlinesAux (c :: acc) rest

def pySplitlines (s : List Char) : List (List Char) := pySplitlinesAux [] s

/-- `d[k] = v` on an insertion-ordered Python dict: overwrite in place if
the key exists, else append. -/
def assocSet : List (List Char × List Char) → List Char → List Char →
    List (List Char × List Char)
  | [], k, v => [(k, v)]
  | (k', v') :: rest, k, v =>
    if k' = k then (k, v) :: rest else (k', v') :: assocSet rest k v

/-- `d.get(k)` on a Python dict (`none` = absent/`None` default). -/
def assocGet : List (List Char × List Char) → List Char → Option (List Char)
  | [], _ => none
  | (k', v') :: rest, k => if k' = k then some v' else assocGet rest k

/-- The loop body of `JDATBlock.parse_data`: strip the line, skip blanks,
split at the first `:` into key/value, strip both, store. -/
def parseLinesStep (d : List (List Char × List Char)) (line : List Char) :
    List (List Char × List Char) :=
  let l := pyStrip line
  if l = [] then d
  else if ':' ∈ l then
    assocSet d (pyStrip (l.takeWhile (fun c => c ≠ ':')))
      (pyStrip ((l.dropWhile (fun c => c ≠ ':')).drop 1))
  else d

/-- The parsing loop of `JDATBlock.parse_data` over
`content.strip().splitlines()`. -/
def parseLines (content : List Char) : List (List Char × List Char) :=
  (pySplitlines (pyStrip content)).foldl parseLinesStep []

/-- One JDAT block (`JDATBlock.__init__`); `data` is the `_data` cache,
`None` at construction. -/
structure JDATBlock where
  name : List Char
  link : List Char
  btype : Nat
  content : List Char
  encrypted : Bool
  data : Option (List (List Char × List Char))
deriving DecidableEq

/-- `JDATBlock(name, link, btype, content, encrypted)`: a fresh block has
an empty cache. -/
def JDATBlock.mk' (name link : List Char) (btype : Nat) (content : List Char)
    (encrypted : Bool := false) : JDATBlock :=
  ⟨name, link, btype, content, encrypted, none⟩

/-- `JDATBlock.parse_data`: returns `{}` for non-Structured kinds, the
cache when present, else parses `content` and caches the result.  The
returned block carries the (possibly updated) cache, modelling the
in-place mutation of `self._data`. -/
def JDATBlock.parse_data (b : JDATBlock) :
    List (List Char × List Char) × JDATBlock :=
  if b.btype ≠ 1 then ([], b)
  else
    match b.data with
    | some d => (d, b)
    | none =>
      let d := parseLines b.content
      (d, { b with data := some d })

/-- `JDATBlock.get(key)` (default `None`). -/
def JDATBlock.get (b : JDATBlock) (key : List Char) : Option (List Char) × JDATBlock :=
  let p := b.parse_data
  (assocGet p.1 key, p.2)

/-- Fuel-driven decimal rendering (`f"{n}"` for a non-negative int). -/
def natReprAux : Nat → Nat → List Char
  | 0, _ => []
  | fuel + 1, n =>
    if n < 10 then [Char.ofNat (48 + n)]
    else natReprAux fuel (n / 10) ++ [Char.ofNat (48 + n % 10)]

def natRepr (n : Nat) : List Char := natReprAux (n + 1) n

/-- `"\n".join(lines)` (and `"\n\n".join(parts)`). -/
def joinSep (sep : List Char) : List (List Char) → List Char
  | [] => []
  | [x] => x
  | x :: xs => x ++ sep ++ joinSep sep xs

/-- `JDATBlock._rebuild_content`: for a Structured block with a populated
cache, re-render `content` as `"  key: value"` lines. -/
def JDATBlock.rebuildContent (b : JDATBlock) : JDATBlock :=
  if b.btype = 1 then
    match b.data with
    | some d =>
      { b with content :=
          joinSep ['\n'] (d.map (fun p => [' ', ' '] ++ p.1 ++ [':', ' '] ++ p.2)) }
    | none => b
  else b

/-- `JDATBlock.set(key, value)`: read (or build) the mapping, assign the
key, store the cache, rebuild `content`. -/
def JDATBlock.set (b : JDATBlock) (key value : List Char) : JDATBlock :=
  let p := b.parse_data
  JDATBlock.rebuildContent { p.2 with data := some (assocSet p.1 key value) }

/-- `JDATBlock.to_jdat`: serialize one block.  Returns the text and the
block (a Structured unencrypted block is first flushed through
`_rebuild_content`, mutating `self.content`). -/
def JDATBlock.to_jdat (b : JDATBlock) : List Char × JDATBlock :=
  if b.encrypted then
    (['(', 'n', ':'] ++ b.name ++ [' ', 'l', ':'] ++ b.link ++ [' ', 't', ':'] ++
      natRepr b.btype ++ [' '] ++ ['e', 'n', 'c', 'r', 'y', 'p', 't', 'e', 'd'] ++ ['\x7b'] ++
      ['\n'] ++ b.content ++ ['\n', '\x7d', ')'], b)
  else if b.btype = 1 then
    let b' := b.rebuildContent
    (['(', 'n', ':'] ++ b'.name ++ [' ', 'l', ':'] ++ b'.link ++ [' ', 't', ':'] ++
      natRepr b'.btype ++ [' ', '\x7b'] ++
      ['\n'] ++ b'.content ++ ['\n', '\x7d', ')'], b')
  else
    (['(', 'n', ':'] ++ b.name ++ [' ', 'l', ':'] ++ b.link ++ [' ', 't', ':'] ++
      natRepr b.btype ++ ['\x7b'] ++
      ['\n'] ++ b.content ++ ['\n', '\x7d', ')'], b)

/-! ### Dict-semantics lemmas -/

theorem assocGet_assocSet (d : List (List Char × List Char)) (k v : List Char) :
    assocGet (assocSet d k v) k = some v := by
  induction d with
  | nil => simp [assocSet, assocGet]
  | cons p rest ih =>
    obtain ⟨k', v'⟩ := p
    by_cases h : k' = k
    · simp [assocSet, assocGet, h]
    · simp [assocSet, assocGet, h, ih]

theorem assocGet_assocSet_ne (d : List (List Char × List Char)) (k v k' : List Char)
    (h : k' ≠ k) : assocGet (assocSet d k v) k' = assocGet d k' := by
  induction d with
  | nil => simp [assocSet, assocGet, Ne.symm h]
  | cons p rest ih =>
    obtain ⟨k0, v0⟩ := p
    by_cases h0 : k0 = k
    · subst h0
      simp [assocSet, assocGet, Ne.symm h]
    · simp [assocSet, assocGet, h0, ih]

theorem assocSet_keys_of_mem (d : List (List Char × List Char)) (k v : List Char)
    (h : k ∈ d.map Prod.fst) : (assocSet d k v).map Prod.fst = d.map Prod.fst := by
  induction d with
  | nil => simp at h
  | cons p rest ih =>
    obtain ⟨k0, v0⟩ := p
    by_cases h0 : k0 = k
    · simp [assocSet, h0]
    · have : k ∈ rest.map Prod.fst := by
        simp at h
        rcases h with h | h
        · exact absurd h.symm h0
        · simpa using h
      simp [assocSet, h0, ih this]

theorem assocSet_keys_of_not_mem (d : List (List Char × List Char)) (k v : List Char)
    (h : k ∉ d.map Prod.fst) :
    (assocSet d k v).map Prod.fst = d.map Prod.fst ++ [k] := by
  induction d with
  | nil => simp [assocSet]
  | cons p rest ih =>
    obtain ⟨k0, v0⟩ := p
    have h0 : k0 ≠ k := by
      intro hc
      exact h (by simp [hc])
    have hr : k ∉ rest.map Prod.fst := by
      intro hc
      exact h (by simp [hc])
    simp [assocSet, h0, ih hr]

theorem mem_keys_assocSet (d : List (List Char × List Char)) (k v : List Char) :
    k ∈ (assocSet d k v).map Prod.fst := by
  by_cases h : k ∈ d.map Prod.fst
  · rw [assocSet_keys_of_mem d k v h]; exact h
  · rw [assocSet_keys_of_not_mem d k v h]; simp

theorem assocSet_nodup (d : List (List Char × List Char)) (k v : List Char)
    (h : (d.map Prod.fst).Nodup) : ((assocSet d k v).map Prod.fst).Nodup := by
  by_cases hm : k ∈ d.map Prod.fst
  · rwa [assocSet_keys_of_mem d k v hm]
  · rw [assocSet_keys_of_not_mem d k v hm]
    rw [List.nodup_append]
    refine ⟨h, List.nodup_singleton k, ?_⟩
    intro a ha hb
    simp only [List.mem_singleton] at hb
    subst hb
    exact hm ha

/-- With distinct keys, a present key occurs exactly once. -/
theorem filter_key_length_one (d : List (List Char × List Char)) (k : List Char)
    (hnd : (d.map Prod.fst).Nodup) (hm : k ∈ d.map Prod.fst) :
    (d.filter (fun p => decide (p.1 = k))).length = 1 := by
  induction d with
  | nil => simp at hm
  | cons p rest ih =>
    obtain ⟨k0, v0⟩ := p
    simp only [List.map_cons, List.nodup_cons] at hnd
    by_cases h0 : k0 = k
    · subst h0
      have hnil : rest.filter (fun p => decide (p.1 = k0)) = [] := by
        rw [List.filter_eq_nil_iff]
        intro a ha
        simp only [decide_eq_true_eq]
        intro hc
        exact hnd.1 (hc ▸ List.mem_map_of_mem Prod.fst ha)
      rw [List.filter_cons_of_pos (by simp), hnil]
      rfl
    · have hm' : k ∈ rest.map Prod.fst := by
        simp at hm
        rcases hm with h | h
        · exact absurd h.symm h0
        · simpa using h
      rw [List.filter_cons_of_neg (by simpa using h0)]
      exact ih hnd.2 hm'

theorem parseLinesStep_nodup (d : List (List Char × List Char)) (line : List Char)
    (h : (d.map Prod.fst).Nodup) : ((parseLinesStep d line).map Prod.fst).Nodup := by
  unfold parseLinesStep
  dsimp only
  split
  · exact h
  · split
    · exact assocSet_nodup _ _ _ h
    · exact h

theorem foldl_parseLinesStep_nodup (lines : List (List Char)) :
    ∀ d, (d.map Prod.fst).Nodup → ((lines.foldl parseLinesStep d).map Prod.fst).Nodup := by
  induction lines with
  | nil => intro d h; exact h
  | cons l rest ih =>
    intro d h
    exact ih _ (parseLinesStep_nodup d l h)

/-- The parsed key/value view of a Structured block has distinct keys. -/
theorem parseLines_nodup (content : List Char) :
    ((parseLines content).map Prod.fst).Nodup :=
  foldl_parseLinesStep_nodup _ [] (by simp)

theorem parse_data_btype (b : JDATBlock) : (b.parse_data).2.btype = b.btype := by
  unfold JDATBlock.parse_data
  split
  · rfl
  · split <;> rfl

theorem parse_data_nodup (b : JDATBlock)
    (hwf : ∀ d, b.data = some d → (d.map Prod.fst).Nodup) :
    (((b.parse_data).1).map Prod.fst).Nodup := by
  unfold JDATBlock.parse_data
  split
  · simp
  · split
    · next d heq => exact hwf d heq
    · exact parseLines_nodup _

theorem parse_data_of_some (b : JDATBlock) (d : List (List Char × List Char))
    (ht : b.btype = 1) (hd : b.data = some d) : b.parse_data = (d, b) := by
  unfold JDATBlock.parse_data
  rw [if_neg (by simp [ht]), hd]

/-- Characterisation of `JDATBlock.set` on a Structured block: it stores the
updated mapping in the cache and synchronously rebuilds `content` from it. -/
theorem set_spec (b : JDATBlock) (k v : List Char) (ht : b.btype = 1) :
    (b.set k v).data = some (assocSet (b.parse_data).1 k v) ∧
    (b.set k v).btype = 1 ∧
    (b.set k v).content = joinSep ['\n'] ((assocSet (b.parse_data).1 k v).map
      (fun p => [' ', ' '] ++ p.1 ++ [':', ' '] ++ p.2)) := by
  unfold JDATBlock.set JDATBlock.rebuildContent
  dsimp only
  rw [if_pos (by rw [parse_data_btype]; exact ht)]
  exact ⟨rfl, by rw [parse_data_btype]; exact ht, rfl⟩

/-- **C8.**  On a Structured unencrypted block, `set(k, v1)` then
`set(k, v2)` leaves exactly one entry for `k`, at the position it
occupied after the first `set` (so repeated `set`s never move a key),
holding `v2`; other keys keep their values, and `content` is rebuilt from
exactly this mapping. -/
theorem set_set_single_entry (b : JDATBlock) (k v1 v2 : List Char)
    (ht : b.btype = 1) (_he : b.encrypted = false)
    (hwf : ∀ d, b.data = some d → (d.map Prod.fst).Nodup) :
    ∃ d1 d2,
      (b.set k v1).data = some d1 ∧
      ((b.set k v1).set k v2).data = some d2 ∧
      d2.map Prod.fst = d1.map Prod.fst ∧
      (d2.filter (fun p => decide (p.1 = k))).length = 1 ∧
      assocGet d2 k = some v2 ∧
      (∀ k', k' ≠ k → assocGet d2 k' = assocGet d1 k') ∧
      ((b.set k v1).set k v2).content = joinSep ['\n'] (d2.map
        (fun p => [' ', ' '] ++ p.1 ++ [':', ' '] ++ p.2)) := by
  obtain ⟨hd1, hbt1, _⟩ := set_spec b k v1 ht
  obtain ⟨hd2, _, hc2⟩ := set_spec (b.set k v1) k v2 hbt1
  set d0 := (b.parse_data).1 with hd0
  set d1 := assocSet d0 k v1 with hd1def
  have hp1 : ((b.set k v1).parse_data) = (d1, b.set k v1) :=
    parse_data_of_some _ _ hbt1 hd1
  rw [hp1] at hd2 hc2
  set d2 := assocSet d1 k v2 with hd2def
  have hnd0 : (d0.map Prod.fst).Nodup := parse_data_nodup b hwf
  have hnd1 : (d1.map Prod.fst).Nodup := assocSet_nodup d0 k v1 hnd0
  have hnd2 : (d2.map Prod.fst).Nodup := assocSet_nodup d1 k v2 hnd1
  have hmem1 : k ∈ d1.map Prod.fst := mem_keys_assocSet d0 k v1
  have hmem2 : k ∈ d2.map Prod.fst := mem_keys_assocSet d1 k v2
  refine ⟨d1, d2, hd1, hd2, ?_, ?_, ?_, ?_, hc2⟩
  · exact assocSet_keys_of_mem d1 k v2 hmem1
  · exact filter_key_length_one d2 k hnd2 hmem2
  · exact assocGet_assocSet d1 k v2
  · intro k' hk'
    exact assocGet_assocSet_ne d1 k v2 k' hk'

/-- Witness for `set_set_single_entry` on a concrete block (an existing key
`a` is overwritten twice; it stays in first position with the second value,
and the rebuilt content shows exactly that). -/
theorem set_set_single_entry_witness :
    ∃ d1 d2,
      ((JDATBlock.mk' ['n'] ['l'] 1 ['a', ':', ' ', 'b', '\n', 'c', ':', ' ', 'd']).set
        ['a'] ['x']).data = some d1 ∧
      (((JDATBlock.mk' ['n'] ['l'] 1 ['a', ':', ' ', 'b', '\n', 'c', ':', ' ', 'd']).set
        ['a'] ['x']).set ['a'] ['y']).data = some d2 ∧
      d2.map Prod.fst = d1.map Prod.fst ∧
      (d2.filter (fun p => decide (p.1 = ['a']))).length = 1 ∧
      assocGet d2 ['a'] = some ['y'] ∧
      (∀ k', k' ≠ ['a'] → assocGet d2 k' = assocGet d1 k') ∧
      (((JDATBlock.mk' ['n'] ['l'] 1 ['a', ':', ' ', 'b', '\n', 'c', ':', ' ', 'd']).set
        ['a'] ['x']).set ['a'] ['y']).content = joinSep ['\n'] (d2.map
        (fun p => [' ', ' '] ++ p.1 ++ [':', ' '] ++ p.2)) :=
  set_set_single_entry (JDATBlock.mk' ['n'] ['l'] 1
      ['a', ':', ' ', 'b', '\n', 'c', ':', ' ', 'd']) ['a'] ['x'] ['y']
    (by decide) (by decide) (by intro d h; exact Option.noConfusion h)

/-- **C5 (corrected), general part.**  The structural accessors never
consult the `encrypted` flag: `parse_data` (hence `get`) computes the same
key/value view whatever the flag's value — on an encrypted block it parses
the stored ciphertext as key/value lines (or returns a stale cache) instead
of signalling an error. -/
theorem parse_data_ignores_encrypted (b : JDATBlock) (e1 e2 : Bool) :
    ({ b with encrypted := e1 } : JDATBlock).parse_data.1 =
      ({ b with encrypted := e2 } : JDATBlock).parse_data.1 := by
  by_cases h : b.btype ≠ 1
  · simp [JDATBlock.parse_data, h]
  · cases hb : b.data with
    | none => simp [JDATBlock.parse_data, h, hb]
    | some d => simp [JDATBlock.parse_data, h, hb]

/-- **C5 counterexample.**  On a concrete encrypted Structured block the
code parses the (ciphertext) content as key/value lines and `get` returns a
value — no `StructuralAccessOnEncrypted` error exists anywhere in the model
of `parse_data`/`get`, refuting the claim that structural access on an
encrypted block signals such an error. -/
theorem get_on_encrypted_parses_ciphertext :
    ((JDATBlock.mk' ['n'] ['l'] 1 ['k', ':', ' ', 'v'] true).get ['k']).1 = some ['v'] := by
  decide

/-! ## The file registry (`jdat.py`, class `JDATFile`)

The parser mirrors `re.finditer` over the two patterns of `_parse`:
at each position a match of the whole pattern is attempted; on success
the match is consumed (matches never overlap), otherwise scanning resumes
one character further.  Both patterns are deterministic once the regex
backtracking is analysed: `\S+`/`\d+` runs are maximal (shrinking them
puts a non-matching character in front of the mandatory `\s+`/literal
that follows), `\s*` runs are maximal, `(encrypted)?` reduces to a
literal-prefix test, and the lazy `(.*?)\}\)` capture stops at the first
`})`. -/

/-- Strip a literal prefix (one regex literal), returning the rest. -/
def listStripPrefix (pre s : List Char) : Option (List Char) :=
  if pre.isPrefixOf s then some (s.drop pre.length) else none

/-- Split at the first occurrence of `term`: `s = pre ++ term ++ post` with
`term` not occurring earlier (the lazy capture `(.*?)` + literal). -/
def splitAtSub (term : List Char) : List Char → Option (List Char × List Char)
  | [] => none
  | c :: cs =>
    if term.isPrefixOf (c :: cs) then some ([], (c :: cs).drop term.length)
    else
      match splitAtSub term cs with
      | some (pre, post) => some (c :: pre, post)
      | none => none

/-- `(\S+)`: a maximal nonempty run of non-whitespace. -/
def takeTok (s : List Char) : Option (List Char × List Char) :=
  if s.takeWhile (fun c => !(pyIsSpace c)) = [] then none
  else some (s.takeWhile (fun c => !(pyIsSpace c)), s.dropWhile (fun c => !(pyIsSpace c)))

/-- `\s+`: at least one whitespace character, consumed maximally. -/
def dropSpaces1 : List Char → Option (List Char)
  | c :: rest => if pyIsSpace c then some (rest.dropWhile pyIsSpace) else none
  | [] => none

/-- `int(digits)` for a run of ASCII digits. -/
def digitsToNat (ds : List Char) : Nat := ds.foldl (fun a c => a * 10 + (c.toNat - 48)) 0

/-- `\s*(encrypted)?\s*\{` after the digits: first try the `encrypted`
token followed by optional whitespace and `{`; the regex's fallback (no
`encrypted`) is the plain `{` test.  The argument has already had the
first `\s*` run consumed. -/
def matchEncBrace (s8 : List Char) : Option (Bool × List Char) :=
  match listStripPrefix ['e', 'n', 'c', 'r', 'y', 'p', 't', 'e', 'd'] s8 with
  | some s9 =>
    (match listStripPrefix ['\x7b'] (s9.dropWhile pyIsSpace) with
     | some s10 => some (true, s10)
     | none => none)
  | none => none

def matchBraceOpen (s8 : List Char) : Option (Bool × List Char) :=
  match matchEncBrace s8 with
  | some r => some r
  | none =>
    match listStripPrefix ['\x7b'] s8 with
    | some s10 => some (false, s10)
    | none => none

/-- Attempt the block pattern
`\(n:(\S+)\s+l:(\S+)\s+t:(\d+)\s*(encrypted)?\s*\{(.*?)\}\)` at the head of
`s`; on success return the materialised block and the input after the
match. -/
def tryMatchBlock (s : List Char) : Option (JDATBlock × List Char) :=
  (listStripPrefix ['(', 'n', ':'] s).bind fun s1 =>
  (takeTok s1).bind fun p2 =>
  (dropSpaces1 p2.2).bind fun s3 =>
  (listStripPrefix ['l', ':'] s3).bind fun s4 =>
  (takeTok s4).bind fun p5 =>
  (dropSpaces1 p5.2).bind fun s6 =>
  (listStripPrefix ['t', ':'] s6).bind fun s7 =>
  if s7.takeWhile pyIsDigit = [] then none
  else
    (matchBraceOpen ((s7.dropWhile pyIsDigit).dropWhile pyIsSpace)).bind fun p8 =>
    (splitAtSub ['\x7d', ')'] p8.2).bind fun p9 =>
    some (⟨p2.1, p5.1, digitsToNat (s7.takeWhile pyIsDigit), p9.1, p8.1, none⟩, p9.2)

/-- Attempt the comment pattern `\(\{<(.*?)>\}\)` at the head of `s`. -/
def tryMatchComment (s : List Char) : Option (List Char × List Char) :=
  (listStripPrefix ['(', '\x7b', '<'] s).bind fun s1 =>
  (splitAtSub ['>', '\x7d', ')'] s1).bind fun p2 =>
  some (p2.1, p2.2)

theorem listStripPrefix_length {pre s r : List Char} (h : listStripPrefix pre s = some r) :
    r.length + pre.length = s.length := by
  unfold listStripPrefix at h
  split at h
  · next hp =>
    have hle : pre.length ≤ s.length :=
      (List.isPrefixOf_iff_prefix.mp (by simpa using hp)).length_le
    simp only [Option.some.injEq] at h
    subst h
    simp
    omega
  · exact absurd h (by simp)

theorem splitAtSub_spec {term : List Char} :
    ∀ {s pre post : List Char}, splitAtSub term s = some (pre, post) →
      s = pre ++ term ++ post := by
  intro s
  induction s with
  | nil => intro pre post h; exact absurd h (by simp [splitAtSub])
  | cons c cs ih =>
    intro pre post h
    unfold splitAtSub at h
    split at h
    · next hp =>
      have hp' : term <+: (c :: cs) := by simpa using hp
      obtain ⟨t2, ht2⟩ := hp'
      simp only [Option.some.injEq, Prod.mk.injEq] at h
      obtain ⟨h1, h2⟩ := h
      subst h1
      subst h2
      rw [List.nil_append, ← ht2, List.drop_left]
    · revert h
      cases hrec : splitAtSub term cs with
      | none => intro h; exact absurd h (by simp)
      | some p =>
        obtain ⟨pre', post'⟩ := p
        intro h
        simp only [Option.some.injEq, Prod.mk.injEq] at h
        obtain ⟨h1, h2⟩ := h
        subst h2
        rw [← h1]
        simp [ih hrec]

theorem splitAtSub_length {term s pre post : List Char} (hterm : term ≠ [])
    (h : splitAtSub term s = some (pre, post)) : post.length < s.length := by
  have := splitAtSub_spec h
  subst this
  have : 0 < term.length := List.length_pos.mpr hterm
  simp
  omega

theorem listStripPrefix_le {pre s r : List Char} (h : listStripPrefix pre s = some r) :
    r.length ≤ s.length := by
  have := listStripPrefix_length h
  omega

theorem takeTok_length {s t s' : List Char} (h : takeTok s = some (t, s')) :
    s'.length ≤ s.length := by
  unfold takeTok at h
  split at h
  · exact absurd h (by simp)
  · simp only [Option.some.injEq, Prod.mk.injEq] at h
    rw [← h.2]
    exact (List.dropWhile_suffix _).length_le

theorem dropSpaces1_length {s s' : List Char} (h : dropSpaces1 s = some s') :
    s'.length ≤ s.length := by
  cases s with
  | nil => exact absurd h (by simp [dropSpaces1])
  | cons c rest =>
    rw [dropSpaces1] at h
    split at h
    · have hlen : (rest.dropWhile pyIsSpace).length ≤ rest.length :=
        (List.dropWhile_suffix pyIsSpace).length_le
      have hs' : s' = rest.dropWhile pyIsSpace := by
        injection h with h'
        exact h'.symm
      subst hs'
      simp only [List.length_cons]
      omega
    · exact absurd h (by simp)

theorem matchEncBrace_length {s8 : List Char} {e : Bool} {s10 : List Char}
    (h : matchEncBrace s8 = some (e, s10)) : s10.length ≤ s8.length := by
  unfold matchEncBrace at h
  split at h
  · next s9 h1 =>
    split at h
    · next s10' h2 =>
      simp only [Option.some.injEq, Prod.mk.injEq] at h
      have l1 := listStripPrefix_le h1
      have l2 := listStripPrefix_le h2
      have l3 : (s9.dropWhile pyIsSpace).length ≤ s9.length :=
        (List.dropWhile_suffix pyIsSpace).length_le
      rw [← h.2]
      omega
    · exact absurd h (by simp)
  · exact absurd h (by simp)

theorem matchBraceOpen_length {s8 : List Char} {e : Bool} {s10 : List Char}
    (h : matchBraceOpen s8 = some (e, s10)) : s10.length ≤ s8.length := by
  unfold matchBraceOpen at h
  split at h
  · next r h1 =>
    simp only [Option.some.injEq] at h
    subst h
    exact matchEncBrace_length h1
  · next h1 =>
    split at h
    · next s10' h2 =>
      simp only [Option.some.injEq, Prod.mk.injEq] at h
      rw [← h.2]
      exact listStripPrefix_le h2
    · exact absurd h (by simp)

theorem tryMatchBlock_shrink {s : List Char} {b : JDATBlock} {rest : List Char}
    (h : tryMatchBlock s = some (b, rest)) : rest.length < s.length := by
  simp only [tryMatchBlock, Option.bind_eq_some] at h
  obtain ⟨s1, h1, p2, h2, s3, h3, s4, h4, p5, h5, s6, h6, s7, h7, h⟩ := h
  split at h
  · exact absurd h (by simp)
  · simp only [Option.bind_eq_some] at h
    obtain ⟨p8, h8, p9, h9, h⟩ := h
    simp only [Option.some.injEq, Prod.mk.injEq] at h
    have l1 := listStripPrefix_length h1
    have l2 : p2.2.length ≤ s1.length := takeTok_length (by rw [h2])
    have l3 := dropSpaces1_length h3
    have l4 := listStripPrefix_le h4
    have l5 : p5.2.length ≤ s4.length := takeTok_length (by rw [h5])
    have l6 := dropSpaces1_length h6
    have l7 := listStripPrefix_le h7
    have l8 := matchBraceOpen_length h8
    have l8a : (s7.dropWhile pyIsDigit).length ≤ s7.length :=
      (List.dropWhile_suffix pyIsDigit).length_le
    have l8b : ((s7.dropWhile pyIsDigit).dropWhile pyIsSpace).length ≤
        (s7.dropWhile pyIsDigit).length :=
      (List.dropWhile_suffix pyIsSpace).length_le
    have l9 := splitAtSub_length (by simp) h9
    rw [← h.2]
    simp at l1
    omega

theorem tryMatchComment_shrink {s : List Char} {cap rest : List Char}
    (h : tryMatchComment s = some (cap, rest)) : rest.length < s.length := by
  simp only [tryMatchComment, Option.bind_eq_some] at h
  obtain ⟨s1, h1, p2, h2, h⟩ := h
  simp only [Option.some.injEq, Prod.mk.injEq] at h
  have l1 := listStripPrefix_length h1
  have l2 := splitAtSub_length (by simp) h2
  rw [← h.2]
  simp at l1
  omega

/-- `re.finditer` over the block pattern: try a match at each position;
matches are consumed, non-matching positions are skipped. -/
def scanBlocksAux : Nat → List Char → List JDATBlock
  | 0, _ => []
  | _ + 1, [] => []
  | fuel + 1, c :: cs =>
    match tryMatchBlock (c :: cs) with
    | some (b, rest) => b :: scanBlocksAux fuel rest
    | none => scanBlocksAux fuel cs

def scanBlocks (s : List Char) : List JDATBlock := scanBlocksAux s.length s

/-- `re.finditer` over the comment pattern; each captured group is
`strip()`ped. -/
def scanCommentsAux : Nat → List Char → List (List Char)
  | 0, _ => []
  | _ + 1, [] => []
  | fuel + 1, c :: cs =>
    match tryMatchComment (c :: cs) with
    | some (cap, rest) => pyStrip cap :: scanCommentsAux fuel rest
    | none => scanCommentsAux fuel cs

def scanComments (s : List Char) : List (List Char) := scanCommentsAux s.length s

theorem scanBlocksAux_mono :
    ∀ f1 : Nat, ∀ f2 : Nat, ∀ s : List Char, s.length ≤ f1 → s.length ≤ f2 →
      scanBlocksAux f1 s = scanBlocksAux f2 s := by
  intro f1
  induction f1 using Nat.strong_induction_on with
  | _ f1 ih =>
    intro f2 s h1 h2
    match f1, f2, s with
    | 0, 0, s => rfl
    | 0, _ + 1, s =>
      have : s = [] := List.eq_nil_of_length_eq_zero (by omega)
      subst this; rfl
    | _ + 1, 0, s =>
      have : s = [] := List.eq_nil_of_length_eq_zero (by omega)
      subst this; rfl
    | _ + 1, _ + 1, [] => rfl
    | g1 + 1, g2 + 1, c :: cs =>
      show (match tryMatchBlock (c :: cs) with
            | some (b, rest) => b :: scanBlocksAux g1 rest
            | none => scanBlocksAux g1 cs) =
           (match tryMatchBlock (c :: cs) with
            | some (b, rest) => b :: scanBlocksAux g2 rest
            | none => scanBlocksAux g2 cs)
      cases hm : tryMatchBlock (c :: cs) with
      | some p =>
        obtain ⟨b, rest⟩ := p
        have := tryMatchBlock_shrink hm
        simp only [List.length_cons] at h1 h2 this
        simp only []
        rw [ih g1 (by omega) g2 rest (by omega) (by omega)]
      | none =>
        simp only [List.length_cons] at h1 h2
        simp only []
        exact ih g1 (by omega) g2 cs (by omega) (by omega)

theorem scanCommentsAux_mono :
    ∀ f1 : Nat, ∀ f2 : Nat, ∀ s : List Char, s.length ≤ f1 → s.length ≤ f2 →
      scanCommentsAux f1 s = scanCommentsAux f2 s := by
  intro f1
  induction f1 using Nat.strong_induction_on with
  | _ f1 ih =>
    intro f2 s h1 h2
    match f1, f2, s with
    | 0, 0, s => rfl
    | 0, _ + 1, s =>
      have : s = [] := List.eq_nil_of_length_eq_zero (by omega)
      subst this; rfl
    | _ + 1, 0, s =>
      have : s = [] := List.eq_nil_of_length_eq_zero (by omega)
      subst this; rfl
    | _ + 1, _ + 1, [] => rfl
    | g1 + 1, g2 + 1, c :: cs =>
      show (match tryMatchComment (c :: cs) with
            | some (cap, rest) => pyStrip cap :: scanCommentsAux g1 rest
            | none => scanCommentsAux g1 cs) =
           (match tryMatchComment (c :: cs) with
            | some (cap, rest) => pyStrip cap :: scanCommentsAux g2 rest
            | none => scanCommentsAux g2 cs)
      cases hm : tryMatchComment (c :: cs) with
      | some p =>
        obtain ⟨cap, rest⟩ := p
        have := tryMatchComment_shrink hm
        simp only [List.length_cons] at h1 h2 this
        simp only []
        rw [ih g1 (by omega) g2 rest (by omega) (by omega)]
      | none =>
        simp only [List.length_cons] at h1 h2
        simp only []
        exact ih g1 (by omega) g2 cs (by omega) (by omega)

theorem scanBlocks_nil : scanBlocks [] = [] := rfl

theorem scanBlocks_cons_match {c : Char} {cs : List Char} {b : JDATBlock} {rest : List Char}
    (h : tryMatchBlock (c :: cs) = some (b, rest)) :
    scanBlocks (c :: cs) = b :: scanBlocks rest := by
  show scanBlocksAux (cs.length + 1) (c :: cs) = _
  show (match tryMatchBlock (c :: cs) with
        | some (b, rest) => b :: scanBlocksAux cs.length rest
        | none => scanBlocksAux cs.length cs) = _
  rw [h]
  have := tryMatchBlock_shrink h
  simp only [List.length_cons] at this
  show b :: scanBlocksAux cs.length rest = b :: scanBlocks rest
  rw [scanBlocksAux_mono cs.length rest.length rest (by omega) (by omega)]
  rfl

theorem scanBlocks_cons_nomatch {c : Char} {cs : List Char}
    (h : tryMatchBlock (c :: cs) = none) :
    scanBlocks (c :: cs) = scanBlocks cs := by
  show scanBlocksAux (cs.length + 1) (c :: cs) = _
  show (match tryMatchBlock (c :: cs) with
        | some (b, rest) => b :: scanBlocksAux cs.length rest
        | none => scanBlocksAux cs.length cs) = _
  rw [h]
  rfl

theorem scanComments_nil : scanComments [] = [] := rfl

theorem scanComments_cons_match {c : Char} {cs : List Char} {cap rest : List Char}
    (h : tryMatchComment (c :: cs) = some (cap, rest)) :
    scanComments (c :: cs) = pyStrip cap :: scanComments rest := by
  show scanCommentsAux (cs.length + 1) (c :: cs) = _
  show (match tryMatchComment (c :: cs) with
        | some (cap, rest) => pyStrip cap :: scanCommentsAux cs.length rest
        | none => scanCommentsAux cs.length cs) = _
  rw [h]
  have := tryMatchComment_shrink h
  simp only [List.length_cons] at this
  show pyStrip cap :: scanCommentsAux cs.length rest = pyStrip cap :: scanComments rest
  rw [scanCommentsAux_mono cs.length rest.length rest (by omega) (by omega)]
  rfl

theorem scanComments_cons_nomatch {c : Char} {cs : List Char}
    (h : tryMatchComment (c :: cs) = none) :
    scanComments (c :: cs) = scanComments cs := by
  show scanCommentsAux (cs.length + 1) (c :: cs) = _
  show (match tryMatchComment (c :: cs) with
        | some (cap, rest) => pyStrip cap :: scanCommentsAux cs.length rest
        | none => scanCommentsAux cs.length cs) = _
  rw [h]
  rfl

/-- One logical `.jdat` file (`JDATFile.__init__`): the ordered block
collection and the comment collection.  (`path` and the stateless
`crypto` member play no role in the verified operations.) -/
structure JDATFile where
  blocks : List JDATBlock
  comments : List (List Char)
deriving DecidableEq

/-- `JDATFile._parse`: reset both collections, then collect every comment
match and every block match in order of appearance. -/
def JDATFile.parseText (f : JDATFile) (text : List Char) : JDATFile :=
  { f with comments := scanComments text, blocks := scanBlocks text }

/-- `JDATFile.get_by_link`: first block with the given link. -/
def JDATFile.get_by_link (f : JDATFile) (link : List Char) : Option JDATBlock :=
  f.blocks.find? (fun b => decide (b.link = link))

/-- Serialize each block in order, threading the `_rebuild_content`
mutation of Structured blocks. -/
def serializeBlocks : List JDATBlock → List (List Char) × List JDATBlock
  | [] => ([], [])
  | b :: bs =>
    let p := b.to_jdat
    let q := serializeBlocks bs
    (p.1 :: q.1, p.2 :: q.2)

/-- `JDATFile.to_jdat`: all comments first (each as `({<c>})`), then all
blocks, joined by blank lines, with a trailing newline. -/
def JDATFile.to_jdat (f : JDATFile) : List Char × JDATFile :=
  let cparts := f.comments.map (fun c => ['(', '\x7b', '<'] ++ c ++ ['>', '\x7d', ')'])
  let q := serializeBlocks f.blocks
  (joinSep ['\n', '\n'] (cparts ++ q.1) ++ ['\n'], { f with blocks := q.2 })

/-- The distinct `ValueError`s the registry can raise. -/
inductive JdatError
  | alreadyEncrypted
  | notEncrypted
  | authenticationFailed
  | duplicateLink
deriving DecidableEq

/-- Replace the first block carrying `link` (in-place mutation of the
found block object). -/
def setFirstByLink : List JDATBlock → List Char → JDATBlock → List JDATBlock
  | [], _, _ => []
  | b :: bs, link, nb =>
    if b.link = link then nb :: bs else b :: setFirstByLink bs link nb

/-- `JDATFile.encrypt_block`: `False` when the link is absent, raise when
already encrypted; otherwise flush a Structured block's cache into
`content`, encrypt, and set the flag.  Errors carry the file state at the
raise point. -/
def JDATFile.encrypt_block (hash : List Nat → List Nat) (aead : AEAD)
    (salt nonce : List Nat) (f : JDATFile) (link password : List Char) :
    Except (JdatError × JDATFile) (Bool × JDATFile) :=
  match f.get_by_link link with
  | none => .ok (false, f)
  | some b =>
    if b.encrypted then .error (.alreadyEncrypted, f)
    else
      let b1 := if b.btype = 1 then b.rebuildContent else b
      let b2 := { b1 with
        content := JDATCrypto.encrypt hash aead salt nonce b1.content password,
        encrypted := true }
      .ok (true, { f with blocks := setFirstByLink f.blocks link b2 })

/-- `JDATFile.decrypt_block`: `False` when the link is absent, raise when
not encrypted; raise `AuthenticationFailed` (leaving the file untouched)
when the cipher rejects; on success store the plaintext, clear the flag
and reset the `_data` cache. -/
def JDATFile.decrypt_block (hash : List Nat → List Nat) (aead : AEAD)
    (f : JDATFile) (link password : List Char) :
    Except (JdatError × JDATFile) (Bool × JDATFile) :=
  match f.get_by_link link with
  | none => .ok (false, f)
  | some b =>
    if !b.encrypted then .error (.notEncrypted, f)
    else
      match JDATCrypto.decrypt hash aead b.content password with
      | .error _ => .error (.authenticationFailed, f)
      | .ok pt =>
        let b' := { b with content := pt, encrypted := false, data := none }
        .ok (true, { f with blocks := setFirstByLink f.blocks link b' })

theorem rebuildContent_data (b : JDATBlock) : (b.rebuildContent).data = b.data := by
  unfold JDATBlock.rebuildContent
  split
  · split <;> rfl
  · rfl

theorem rebuildContent_encrypted (b : JDATBlock) :
    (b.rebuildContent).encrypted = b.encrypted := by
  unfold JDATBlock.rebuildContent
  split
  · split <;> rfl
  · rfl

/-- **C3.**  The registry's `encrypt_block` and `decrypt_block` signal
"block not found" — the distinguished `False` result, with the file left
untouched and no exception — exactly when no block with the given link
exists.  (The spec's `BlockNotFound` error is this distinguished result;
success returns `True` and the state-mismatch cases raise.) -/
theorem block_not_found_signal (hash : List Nat → List Nat) (aead : AEAD)
    (salt nonce : List Nat) (f : JDATFile) (link pw pw2 : List Char) :
    f.get_by_link link = none ↔
      (f.encrypt_block hash aead salt nonce link pw = .ok (false, f) ∧
       f.decrypt_block hash aead link pw2 = .ok (false, f)) := by
  constructor
  · intro hfind
    constructor
    · simp only [JDATFile.encrypt_block, hfind]
    · simp only [JDATFile.decrypt_block, hfind]
  · intro ⟨h1, h2⟩
    cases hfind : f.get_by_link link with
    | none => rfl
    | some b =>
      exfalso
      simp only [JDATFile.encrypt_block, hfind] at h1
      split at h1
      · exact Except.noConfusion h1
      · simp only [Except.ok.injEq, Prod.mk.injEq] at h1
        exact Bool.noConfusion h1.1

/-- **C6.**  When `decrypt_block` fails with `AuthenticationFailed` the
targeted block is left unchanged: the raised error carries exactly the
input file, so the block is still present, still `encrypted`, with the
same `content` and untouched `_data` cache. -/
theorem decrypt_auth_failure_preserves_block (hash : List Nat → List Nat) (aead : AEAD)
    (f : JDATFile) (link pw : List Char) (b : JDATBlock)
    (hfind : f.get_by_link link = some b) (henc : b.encrypted = true)
    (hfail : JDATCrypto.decrypt hash aead b.content pw = .error .authenticationFailed) :
    f.decrypt_block hash aead link pw = .error (.authenticationFailed, f) := by
  simp only [JDATFile.decrypt_block, hfind, henc, hfail, Bool.not_true, Bool.false_eq_true,
    if_false]

/-- Witness for `decrypt_auth_failure_preserves_block`: a concrete
encrypted block whose content is not a valid package; decryption raises
and the file is returned unchanged. -/
theorem decrypt_auth_failure_preserves_block_witness :
    JDATFile.decrypt_block toyHash toyAead
        ⟨[⟨['n'], ['l'], 1, ['#'], true, none⟩], []⟩ ['l'] ['p'] =
      .error (.authenticationFailed, ⟨[⟨['n'], ['l'], 1, ['#'], true, none⟩], []⟩) :=
  decrypt_auth_failure_preserves_block toyHash toyAead
    ⟨[⟨['n'], ['l'], 1, ['#'], true, none⟩], []⟩ ['l'] ['p']
    ⟨['n'], ['l'], 1, ['#'], true, none⟩ (by rfl) (by rfl) (by rfl)

/-- **C4 (corrected), general part.**  Of the two registry cipher
operations, only `decrypt_block` invalidates the `_data` cache (it stores
`None` together with the plaintext); `encrypt_block` replaces `content`
with the ciphertext but leaves the cache exactly as it was — a populated
cache survives encryption as a stale structured view. -/
theorem cache_invalidation_on_ops (hash : List Nat → List Nat) (aead : AEAD)
    (salt nonce : List Nat) (f : JDATFile) (link pw : List Char) (b : JDATBlock)
    (hfind : f.get_by_link link = some b) :
    (∀ pt, b.encrypted = true → JDATCrypto.decrypt hash aead b.content pw = .ok pt →
      f.decrypt_block hash aead link pw =
        .ok (true, { f with blocks := setFirstByLink f.blocks link ({ b with content := pt, encrypted := false, data := none }) })) ∧
    (b.encrypted = false →
      ∃ b2, f.encrypt_block hash aead salt nonce link pw = .ok (true,
          { f with blocks := setFirstByLink f.blocks link b2 }) ∧
        b2.data = b.data ∧ b2.encrypted = true) := by
  constructor
  · intro pt henc hok
    simp only [JDATFile.decrypt_block, hfind, henc, hok, Bool.not_true, Bool.false_eq_true,
      if_false]
  · intro henc
    refine ⟨{ (if b.btype = 1 then b.rebuildContent else b) with
      content := JDATCrypto.encrypt hash aead salt nonce
        (if b.btype = 1 then b.rebuildContent else b).content pw,
      encrypted := true }, ?_, ?_, rfl⟩
    · simp only [JDATFile.encrypt_block, hfind, henc, Bool.false_eq_true, if_false]
    · simp only []
      split
      · exact rebuildContent_data b
      · rfl

/-- Witness for `cache_invalidation_on_ops`: a concrete file whose only
block holds a populated cache; after `encrypt_block` the cache is still
there (`b2.data = b.data ≠ none`). -/
theorem cache_invalidation_on_ops_witness :
    ∃ b2, JDATFile.encrypt_block toyHash toyAead (List.replicate 16 3) (List.replicate 12 7)
        ⟨[((JDATBlock.mk' ['n'] ['l'] 1 ['a', ':', ' ', 'b']).get ['a']).2], []⟩ ['l'] ['p'] =
        .ok (true, { (⟨[((JDATBlock.mk' ['n'] ['l'] 1 ['a', ':', ' ', 'b']).get ['a']).2], []⟩ : JDATFile) with blocks := setFirstByLink [((JDATBlock.mk' ['n'] ['l'] 1 ['a', ':', ' ', 'b']).get ['a']).2] ['l'] b2 }) ∧
      b2.data = ((JDATBlock.mk' ['n'] ['l'] 1 ['a', ':', ' ', 'b']).get ['a']).2.data ∧
      b2.encrypted = true :=
  (cache_invalidation_on_ops toyHash toyAead (List.replicate 16 3) (List.replicate 12 7)
    ⟨[((JDATBlock.mk' ['n'] ['l'] 1 ['a', ':', ' ', 'b']).get ['a']).2], []⟩ ['l'] ['p']
    ((JDATBlock.mk' ['n'] ['l'] 1 ['a', ':', ' ', 'b']).get ['a']).2 (by rfl)).2 (by rfl)

/-- **C4 counterexample.**  Concretely: a Structured block whose cache was
populated by `get` is encrypted via `encrypt_block`; the resulting block
still carries the parsed view `{a: b}` in its cache (and is flagged
encrypted), refuting the claim that every content-replacing operation
clears the cache. -/
theorem encrypt_block_keeps_stale_cache :
    (JDATFile.encrypt_block toyHash toyAead (List.replicate 16 3) (List.replicate 12 7)
        ⟨[((JDATBlock.mk' ['n'] ['l'] 1 ['a', ':', ' ', 'b']).get ['a']).2], []⟩ ['l'] ['p']).map
      (fun r => (r.1, r.2.blocks.map (fun blk => (blk.data, blk.encrypted)))) =
    .ok (true, [(some [(['a'], ['b'])], true)]) := by rfl

/-- **C10.**  `_parse` (and hence `load`, which delegates to it) first
discards the file's previous block and comment collections: the result
holds exactly the comments and blocks scanned from the new text and is
independent of the file's prior state. -/
theorem parse_resets_state (f g : JDATFile) (text : List Char) :
    (f.parseText text).blocks = scanBlocks text ∧
    (f.parseText text).comments = scanComments text ∧
    f.parseText text = g.parseText text :=
  ⟨rfl, rfl, rfl⟩

/-! ## C7: the serialize/parse round trip

Support lemmas: decimal rendering round-trips through the digit scanner,
and each serialized segment is re-scanned exactly. -/

theorem natReprAux_mono : ∀ f1 : Nat, ∀ f2 : Nat, ∀ n : Nat, n < f1 → n < f2 →
    natReprAux f1 n = natReprAux f2 n := by
  intro f1
  induction f1 using Nat.strong_induction_on with
  | _ f1 ih =>
    intro f2 n h1 h2
    match f1, f2 with
    | g1 + 1, g2 + 1 =>
      show (if n < 10 then [Char.ofNat (48 + n)]
            else natReprAux g1 (n / 10) ++ [Char.ofNat (48 + n % 10)]) =
           (if n < 10 then [Char.ofNat (48 + n)]
            else natReprAux g2 (n / 10) ++ [Char.ofNat (48 + n % 10)])
      by_cases hn : n < 10
      · rw [if_pos hn, if_pos hn]
      · rw [if_neg hn, if_neg hn,
          ih g1 (by omega) g2 (n / 10) (by omega) (by omega)]

theorem natRepr_lt (n : Nat) (h : n < 10) : natRepr n = [Char.ofNat (48 + n)] := by
  unfold natRepr
  show (if n < 10 then [Char.ofNat (48 + n)]
        else natReprAux n (n / 10) ++ [Char.ofNat (48 + n % 10)]) = _
  rw [if_pos h]

theorem natRepr_ge (n : Nat) (h : 10 ≤ n) :
    natRepr n = natRepr (n / 10) ++ [Char.ofNat (48 + n % 10)] := by
  unfold natRepr
  show (if n < 10 then [Char.ofNat (48 + n)]
        else natReprAux n (n / 10) ++ [Char.ofNat (48 + n % 10)]) = _
  rw [if_neg (by omega), natReprAux_mono n (n / 10 + 1) (n / 10) (by omega) (by omega)]

theorem digit_char_facts : ∀ d : Nat, d < 10 →
    pyIsDigit (Char.ofNat (48 + d)) = true ∧ (Char.ofNat (48 + d)).toNat = 48 + d ∧
    pyIsSpace (Char.ofNat (48 + d)) = false ∧ Char.ofNat (48 + d) ≠ '(' := by
  decide

theorem natRepr_digits (n : Nat) : ∀ c ∈ natRepr n, pyIsDigit c = true := by
  induction n using Nat.strong_induction_on with
  | _ n ih =>
    by_cases h : n < 10
    · rw [natRepr_lt n h]
      intro c hc
      simp only [List.mem_singleton] at hc
      subst hc
      exact (digit_char_facts n h).1
    · rw [natRepr_ge n (by omega)]
      intro c hc
      rcases List.mem_append.mp hc with h' | h'
      · exact ih (n / 10) (by omega) c h'
      · simp only [List.mem_singleton] at h'
        subst h'
        exact (digit_char_facts (n % 10) (by omega)).1

theorem natRepr_ne_nil (n : Nat) : natRepr n ≠ [] := by
  by_cases h : n < 10
  · rw [natRepr_lt n h]; simp
  · rw [natRepr_ge n (by omega)]; simp

theorem digitsToNat_append (ds : List Char) (c : Char) :
    digitsToNat (ds ++ [c]) = digitsToNat ds * 10 + (c.toNat - 48) := by
  unfold digitsToNat
  rw [List.foldl_append]
  rfl

theorem digitsToNat_natRepr (n : Nat) : digitsToNat (natRepr n) = n := by
  induction n using Nat.strong_induction_on with
  | _ n ih =>
    by_cases h : n < 10
    · rw [natRepr_lt n h]
      show 0 * 10 + ((Char.ofNat (48 + n)).toNat - 48) = n
      rw [(digit_char_facts n h).2.1]
      omega
    · rw [natRepr_ge n (by omega), digitsToNat_append, ih (n / 10) (by omega),
        (digit_char_facts (n % 10) (by omega)).2.1]
      omega

/-- A safe header token: nonempty, no whitespace, no braces (the "no
nested braces" discipline applied to `name`/`link`). -/
def goodTok (t : List Char) : Bool :=
  !t.isEmpty && t.all (fun c => !pyIsSpace c && c ≠ '\x7b' && c ≠ '\x7d')

/-- Safe block content: no brace characters (no nested braces). -/
def goodContent (s : List Char) : Bool :=
  s.all (fun c => c ≠ '\x7b' && c ≠ '\x7d')

/-- Safe comment text: no braces and no `(` (no nested segments). -/
def goodComment (s : List Char) : Bool :=
  s.all (fun c => c ≠ '\x7b' && c ≠ '\x7d' && c ≠ '(')

def goodBlock (b : JDATBlock) : Bool :=
  goodTok b.name && goodTok b.link && goodContent b.content && b.data == none

/-- A parsed file is well-formed ("no nested braces"): every block's
name/link/content and every comment are brace-free, comments contain no
`(`, and every block cache is unset (as the parser leaves it). -/
def goodFile (f : JDATFile) : Bool :=
  f.blocks.all goodBlock && f.comments.all goodComment

/-- The text `JDATBlock.to_jdat` produces for a cache-less block. -/
def braceTok (b : JDATBlock) : List Char :=
  if b.encrypted then ' ' :: ['e', 'n', 'c', 'r', 'y', 'p', 't', 'e', 'd'] ++ ['\x7b']
  else if b.btype = 1 then [' ', '\x7b'] else ['\x7b']

def renderBlock (b : JDATBlock) : List Char :=
  ['(', 'n', ':'] ++ b.name ++ [' ', 'l', ':'] ++ b.link ++ [' ', 't', ':'] ++
    natRepr b.btype ++ braceTok b ++ '\n' :: (b.content ++ ['\n', '\x7d', ')'])

def renderComment (c : List Char) : List Char :=
  ['(', '\x7b', '<'] ++ c ++ ['>', '\x7d', ')']

theorem rebuildContent_of_none (b : JDATBlock) (hd : b.data = none) :
    b.rebuildContent = b := by
  unfold JDATBlock.rebuildContent
  split
  · rw [hd]
  · rfl

theorem to_jdat_eq_renderBlock (b : JDATBlock) (hd : b.data = none) :
    b.to_jdat = (renderBlock b, b) := by
  unfold JDATBlock.to_jdat renderBlock braceTok
  by_cases he : b.encrypted
  · rw [if_pos he, if_pos he]
    simp [List.append_assoc]
  · rw [if_neg he, if_neg he]
    by_cases ht : b.btype = 1
    · rw [if_pos ht, if_pos ht]
      simp only [rebuildContent_of_none b hd]
      simp [List.append_assoc]
    · rw [if_neg ht, if_neg ht]
      simp [List.append_assoc]

theorem serializeBlocks_eq : ∀ (bs : List JDATBlock), (∀ b ∈ bs, b.data = none) →
    serializeBlocks bs = (bs.map renderBlock, bs)
  | [], _ => rfl
  | b :: bs, h => by
    unfold serializeBlocks
    rw [to_jdat_eq_renderBlock b (h b (by simp)),
      serializeBlocks_eq bs (fun x hx => h x (by simp [hx]))]
    rfl

theorem listStripPrefix_append (pre t : List Char) :
    listStripPrefix pre (pre ++ t) = some t := by
  unfold listStripPrefix
  rw [if_pos (List.isPrefixOf_iff_prefix.mpr (List.prefix_append pre t)), List.drop_left]

theorem listStripPrefix_none {pre s : List Char} (h : pre.isPrefixOf s = false) :
    listStripPrefix pre s = none := by
  unfold listStripPrefix
  rw [if_neg (by simp [h])]

theorem token_split {p : Char → Bool} : ∀ (l : List Char) (c0 : Char) (r : List Char),
    (∀ c ∈ l, p c = true) → p c0 = false →
    (l ++ c0 :: r).takeWhile p = l ∧ (l ++ c0 :: r).dropWhile p = c0 :: r
  | [], c0, r, _, hc => by
    simp [List.takeWhile, List.dropWhile, hc]
  | c :: l, c0, r, hl, hc => by
    have hcp := hl c (by simp)
    have ⟨ih1, ih2⟩ := token_split l c0 r (fun x hx => hl x (by simp [hx])) hc
    constructor
    · show List.takeWhile p (c :: (l ++ c0 :: r)) = c :: l
      rw [List.takeWhile_cons, hcp]
      simp [ih1]
    · show List.dropWhile p (c :: (l ++ c0 :: r)) = c0 :: r
      rw [List.dropWhile_cons, hcp]
      simp [ih2]

theorem dropWhile_cons_false {p : Char → Bool} {c : Char} (r : List Char)
    (h : p c = false) : (c :: r).dropWhile p = c :: r := by
  rw [List.dropWhile_cons, h]
  simp

theorem takeTok_spec (t : List Char) (c0 : Char) (r : List Char) (ht : t ≠ [])
    (hall : ∀ c ∈ t, pyIsSpace c = false) (hc : pyIsSpace c0 = true) :
    takeTok (t ++ c0 :: r) = some (t, c0 :: r) := by
  have hts : (t ++ c0 :: r).takeWhile (fun c => !pyIsSpace c) = t ∧
      (t ++ c0 :: r).dropWhile (fun c => !pyIsSpace c) = c0 :: r :=
    token_split t c0 r
      (fun c hc' => by simp [hall c hc'])
      (by simp [hc])
  have ⟨h1, h2⟩ := hts
  unfold takeTok
  rw [h1, h2, if_neg ht]

theorem dropSpaces1_cons (c0 : Char) (r : List Char) (hc : pyIsSpace c0 = true) :
    dropSpaces1 (c0 :: r) = some (r.dropWhile pyIsSpace) := by
  rw [dropSpaces1, if_pos hc]

theorem splitAtSub_of_no_brace : ∀ (pre post : List Char),
    (∀ ch ∈ pre, ch ≠ '\x7d') →
    splitAtSub ['\x7d', ')'] (pre ++ '\x7d' :: ')' :: post) = some (pre, post)
  | [], post, _ => by
    rw [List.nil_append, splitAtSub, if_pos (by simp [List.isPrefixOf])]
    rfl
  | c :: pre, post, h => by
    have hc : c ≠ '\x7d' := h c (by simp)
    rw [List.cons_append, splitAtSub, if_neg, splitAtSub_of_no_brace pre post
      (fun x hx => h x (by simp [hx]))]
    intro hp
    have : c = '\x7d' := by
      have := List.isPrefixOf_iff_prefix.mp hp
      obtain ⟨tl, htl⟩ := this
      have := congrArg (fun l => l.head?) htl
      simpa using this.symm
    exact hc this

theorem goodTok_props {t : List Char} (h : goodTok t = true) :
    t ≠ [] ∧ (∀ c ∈ t, pyIsSpace c = false) := by
  simp only [goodTok, Bool.and_eq_true, List.all_eq_true, Bool.not_eq_true'] at h
  obtain ⟨h1, h2⟩ := h
  refine ⟨by simpa [List.isEmpty_iff] using h1, ?_⟩
  intro c hc
  have := h2 c hc
  simp only [Bool.and_eq_true] at this
  exact (by simpa using this.1.1)

theorem goodContent_props {s : List Char} (h : goodContent s = true) :
    ∀ c ∈ s, c ≠ '\x7d' := by
  simp only [goodContent, List.all_eq_true, Bool.and_eq_true] at h
  intro c hc
  have := (h c hc).2
  simpa using this

theorem goodBlock_props {b : JDATBlock} (h : goodBlock b = true) :
    (b.name ≠ [] ∧ ∀ c ∈ b.name, pyIsSpace c = false) ∧
    (b.link ≠ [] ∧ ∀ c ∈ b.link, pyIsSpace c = false) ∧
    (∀ c ∈ b.content, c ≠ '\x7d') ∧ b.data = none := by
  simp only [goodBlock, Bool.and_eq_true, beq_iff_eq] at h
  exact ⟨goodTok_props h.1.1.1, goodTok_props h.1.1.2, goodContent_props h.1.2, h.2⟩

theorem strip_np (Y : List Char) :
    listStripPrefix ['(', 'n', ':'] ('(' :: 'n' :: ':' :: Y) = some Y :=
  listStripPrefix_append ['(', 'n', ':'] Y

theorem strip_l (Y : List Char) :
    listStripPrefix ['l', ':'] ('l' :: ':' :: Y) = some Y :=
  listStripPrefix_append ['l', ':'] Y

theorem strip_t (Y : List Char) :
    listStripPrefix ['t', ':'] ('t' :: ':' :: Y) = some Y :=
  listStripPrefix_append ['t', ':'] Y

theorem strip_encrypted (Y : List Char) :
    listStripPrefix ['e', 'n', 'c', 'r', 'y', 'p', 't', 'e', 'd']
      ('e' :: 'n' :: 'c' :: 'r' :: 'y' :: 'p' :: 't' :: 'e' :: 'd' :: Y) = some Y :=
  listStripPrefix_append ['e', 'n', 'c', 'r', 'y', 'p', 't', 'e', 'd'] Y

theorem strip_brace (Y : List Char) :
    listStripPrefix ['\x7b'] ('\x7b' :: Y) = some Y :=
  listStripPrefix_append ['\x7b'] Y

theorem takeTok_spec_space (t r : List Char) (ht : t ≠ [])
    (hall : ∀ c ∈ t, pyIsSpace c = false) :
    takeTok (t ++ ' ' :: r) = some (t, ' ' :: r) :=
  takeTok_spec t ' ' r ht hall (by decide)

theorem digits_split (n : Nat) (c0 : Char) (r : List Char) (hc : pyIsDigit c0 = false) :
    (natRepr n ++ c0 :: r).takeWhile pyIsDigit = natRepr n ∧
    (natRepr n ++ c0 :: r).dropWhile pyIsDigit = c0 :: r :=
  token_split (natRepr n) c0 r (natRepr_digits n) hc

theorem dropWhile_space_cons_space (W : List Char) :
    (' ' :: W).dropWhile pyIsSpace = W.dropWhile pyIsSpace := by
  rw [List.dropWhile_cons]
  simp [pyIsSpace]

theorem matchEncBrace_enc (tail : List Char) :
    matchEncBrace ('e' :: 'n' :: 'c' :: 'r' :: 'y' :: 'p' :: 't' :: 'e' :: 'd' ::
      '\x7b' :: tail) = some (true, tail) := by
  unfold matchEncBrace
  rw [strip_encrypted]
  show (match listStripPrefix ['\x7b'] (List.dropWhile pyIsSpace ('\x7b' :: tail)) with
        | some s10 => some (true, s10)
        | none => none) = some (true, tail)
  rw [dropWhile_cons_false _ (by decide), strip_brace]

theorem matchEncBrace_plain (tail : List Char) :
    matchEncBrace ('\x7b' :: tail) = none := by
  unfold matchEncBrace
  rw [listStripPrefix_none (by simp [List.isPrefixOf])]

theorem matchBraceOpen_enc (tail : List Char) :
    matchBraceOpen ('e' :: 'n' :: 'c' :: 'r' :: 'y' :: 'p' :: 't' :: 'e' :: 'd' ::
      '\x7b' :: tail) = some (true, tail) := by
  unfold matchBraceOpen
  rw [matchEncBrace_enc]

theorem matchBraceOpen_plain (tail : List Char) :
    matchBraceOpen ('\x7b' :: tail) = some (false, tail) := by
  unfold matchBraceOpen
  rw [matchEncBrace_plain]
  show (match listStripPrefix ['\x7b'] ('\x7b' :: tail) with
        | some s10 => some (false, s10)
        | none => none) = some (false, tail)
  rw [strip_brace]

/-- Re-scanning a serialized block at the head of the input matches
exactly the rendered segment: same name, link, kind and encrypted flag,
content wrapped in the newline pair the renderer added. -/
theorem digits_nonempty (n : Nat) (c0 : Char) (r : List Char) (hc : pyIsDigit c0 = false) :
    ¬ ((natRepr n ++ c0 :: r).takeWhile pyIsDigit = []) := by
  rw [(digits_split n c0 r hc).1]
  exact natRepr_ne_nil n

/-- Re-scanning a serialized block at the head of the input matches
exactly the rendered segment: same name, link, kind and encrypted flag,
content wrapped in the newline pair the renderer added. -/
theorem tryMatchBlock_render (b : JDATBlock) (rest : List Char) (hb : goodBlock b = true) :
    tryMatchBlock (renderBlock b ++ rest) =
      some (⟨b.name, b.link, b.btype, '\n' :: (b.content ++ ['\n']), b.encrypted, none⟩,
        rest) := by
  obtain ⟨⟨hn1, hn2⟩, ⟨hl1, hl2⟩, hcont, _⟩ := goodBlock_props hb
  have hpre : ∀ ch ∈ '\n' :: (b.content ++ ['\n']), ch ≠ '\x7d' := by
    intro ch hch
    rcases List.mem_cons.mp hch with h' | h'
    · subst h'; decide
    · rcases List.mem_append.mp h' with h'' | h''
      · exact hcont ch h''
      · simp only [List.mem_singleton] at h''
        subst h''; decide
  have hsplit : splitAtSub ['\x7d', ')']
      ('\n' :: (b.content ++ ('\n' :: '\x7d' :: ')' :: rest))) =
      some ('\n' :: (b.content ++ ['\n']), rest) := by
    have := splitAtSub_of_no_brace ('\n' :: (b.content ++ ['\n'])) rest hpre
    simpa [List.append_assoc] using this
  rw [tryMatchBlock]
  simp only [renderBlock, List.append_assoc, List.cons_append, List.nil_append]
  rw [strip_np, Option.some_bind, takeTok_spec_space b.name _ hn1 hn2, Option.some_bind]
  show ((dropSpaces1 (' ' :: 'l' :: ':' :: (b.link ++ ' ' :: 't' :: ':' ::
      (natRepr b.btype ++ (braceTok b ++ '\n' ::
        (b.content ++ ('\n' :: '\x7d' :: ')' :: rest))))))).bind _) = _
  rw [dropSpaces1_cons _ _ (by decide), dropWhile_cons_false _ (by decide),
    Option.some_bind, strip_l, Option.some_bind,
    takeTok_spec_space b.link _ hl1 hl2, Option.some_bind]
  show ((dropSpaces1 (' ' :: 't' :: ':' :: (natRepr b.btype ++ (braceTok b ++ '\n' ::
      (b.content ++ ('\n' :: '\x7d' :: ')' :: rest)))))).bind _) = _
  rw [dropSpaces1_cons _ _ (by decide), dropWhile_cons_false _ (by decide),
    Option.some_bind, strip_t, Option.some_bind]
  by_cases he : b.encrypted
  · rw [show braceTok b = ' ' :: 'e' :: 'n' :: 'c' :: 'r' :: 'y' :: 'p' :: 't' :: 'e' ::
      'd' :: ['\x7b'] from by simp [braceTok, he]]
    simp only [List.cons_append, List.nil_append]
    rw [if_neg (digits_nonempty b.btype ' ' _ (by decide))]
    rw [(digits_split b.btype ' ' _ (by decide)).2]
    rw [dropWhile_space_cons_space, dropWhile_cons_false _ (by decide)]
    rw [matchBraceOpen_enc, Option.some_bind, hsplit, Option.some_bind]
    rw [(digits_split b.btype ' ' _ (by decide)).1, digitsToNat_natRepr, he]
  · rw [Bool.not_eq_true] at he
    by_cases ht : b.btype = 1
    · rw [show braceTok b = ' ' :: ['\x7b'] from by simp [braceTok, he, ht]]
      simp only [List.cons_append, List.nil_append]
      rw [if_neg (digits_nonempty b.btype ' ' _ (by decide))]
      rw [(digits_split b.btype ' ' _ (by decide)).2]
      rw [dropWhile_space_cons_space, dropWhile_cons_false _ (by decide)]
      rw [matchBraceOpen_plain, Option.some_bind, hsplit, Option.some_bind]
      rw [(digits_split b.btype ' ' _ (by decide)).1, digitsToNat_natRepr, he]
    · rw [show braceTok b = ['\x7b'] from by simp [braceTok, he, ht]]
      simp only [List.cons_append, List.nil_append]
      rw [if_neg (digits_nonempty b.btype '\x7b' _ (by decide))]
      rw [(digits_split b.btype '\x7b' _ (by decide)).2]
      rw [dropWhile_cons_false _ (by decide)]
      rw [matchBraceOpen_plain, Option.some_bind, hsplit, Option.some_bind]
      rw [(digits_split b.btype '\x7b' _ (by decide)).1, digitsToNat_natRepr, he]

theorem tryMatchBlock_no_open_tag {s : List Char}
    (h : (['(', 'n', ':'] : List Char).isPrefixOf s = false) : tryMatchBlock s = none := by
  rw [tryMatchBlock, listStripPrefix_none h, Option.none_bind]

theorem tryMatchBlock_ne_paren {c : Char} {s : List Char} (h : c ≠ '(') :
    tryMatchBlock (c :: s) = none := by
  apply tryMatchBlock_no_open_tag
  simp [List.isPrefixOf, h, Ne.symm h]

theorem scanBlocks_skip_nonparen : ∀ (l : List Char), (∀ ch ∈ l, ch ≠ '(') →
    ∀ (rest : List Char), scanBlocks (l ++ rest) = scanBlocks rest
  | [], _, rest => rfl
  | c :: l, h, rest => by
    rw [List.cons_append,
      scanBlocks_cons_nomatch (tryMatchBlock_ne_paren (h c (by simp))),
      scanBlocks_skip_nonparen l (fun x hx => h x (by simp [hx])) rest]

/-- The block pass skips a serialized comment entirely. -/
theorem scanBlocks_skip_comment (c : List Char) (hc : goodComment c = true)
    (rest : List Char) : scanBlocks (renderComment c ++ rest) = scanBlocks rest := by
  have hnp : ∀ ch ∈ c, ch ≠ '(' := by
    intro ch hch
    simp only [goodComment, List.all_eq_true, Bool.and_eq_true] at hc
    have := (hc ch hch).2
    simpa using this
  rw [show renderComment c ++ rest =
    '(' :: '\x7b' :: '<' :: (c ++ ('>' :: '\x7d' :: ')' :: rest)) from by
      simp [renderComment, List.append_assoc]]
  rw [scanBlocks_cons_nomatch (tryMatchBlock_no_open_tag (by simp [List.isPrefixOf])),
    scanBlocks_cons_nomatch (tryMatchBlock_ne_paren (by decide)),
    scanBlocks_cons_nomatch (tryMatchBlock_ne_paren (by decide)),
    scanBlocks_skip_nonparen c hnp,
    scanBlocks_cons_nomatch (tryMatchBlock_ne_paren (by decide)),
    scanBlocks_cons_nomatch (tryMatchBlock_ne_paren (by decide)),
    scanBlocks_cons_nomatch (tryMatchBlock_ne_paren (by decide))]

/-- A serialized block at the head of the scan contributes exactly its
re-wrapped block. -/
theorem scanBlocks_render_cons (b : JDATBlock) (rest : List Char)
    (hb : goodBlock b = true) :
    scanBlocks (renderBlock b ++ rest) =
      ⟨b.name, b.link, b.btype, '\n' :: (b.content ++ ['\n']), b.encrypted, none⟩ ::
        scanBlocks rest := by
  have hmatch := tryMatchBlock_render b rest hb
  have hshape : renderBlock b ++ rest = '(' :: ('n' :: ':' :: (b.name ++ [' ', 'l', ':'] ++
      b.link ++ [' ', 't', ':'] ++ natRepr b.btype ++ braceTok b ++ '\n' ::
      (b.content ++ ['\n', '\x7d', ')']) ++ rest)) := by
    simp [renderBlock, List.append_assoc]
  rw [hshape] at hmatch ⊢
  exact scanBlocks_cons_match hmatch

/-- The block a re-parse recovers from a serialized block: all fields
preserved, content wrapped in the newline pair `to_jdat` adds. -/
def wrapBlock (b : JDATBlock) : JDATBlock :=
  ⟨b.name, b.link, b.btype, '\n' :: (b.content ++ ['\n']), b.encrypted, none⟩

def renderItem : List Char ⊕ JDATBlock → List Char
  | .inl c => renderComment c
  | .inr b => renderBlock b

def goodItem : List Char ⊕ JDATBlock → Bool
  | .inl c => goodComment c
  | .inr b => goodBlock b

def itemBlocks : List (List Char ⊕ JDATBlock) → List JDATBlock
  | [] => []
  | .inl _ :: its => itemBlocks its
  | .inr b :: its => wrapBlock b :: itemBlocks its

theorem joinSep_cons2 (sep x y : List Char) (ys : List (List Char)) :
    joinSep sep (x :: y :: ys) = x ++ sep ++ joinSep sep (y :: ys) := rfl

theorem scanBlocks_joinParts : ∀ (items : List (List Char ⊕ JDATBlock)),
    (∀ it ∈ items, goodItem it = true) →
    scanBlocks (joinSep ['\n', '\n'] (items.map renderItem) ++ ['\n']) = itemBlocks items
  | [], _ => rfl
  | [it], h => by
    cases it with
    | inl c =>
      show scanBlocks (renderComment c ++ ['\n']) = itemBlocks [Sum.inl c]
      rw [scanBlocks_skip_comment c (h (Sum.inl c) (by simp))]
      rfl
    | inr b =>
      show scanBlocks (renderBlock b ++ ['\n']) = itemBlocks [Sum.inr b]
      rw [scanBlocks_render_cons b _ (h (Sum.inr b) (by simp))]
      rfl
  | it :: it2 :: its, h => by
    have hrest := scanBlocks_joinParts (it2 :: its) (fun x hx => h x (by simp [hx]))
    simp only [List.map_cons] at hrest
    show scanBlocks (joinSep ['\n', '\n'] (renderItem it :: renderItem it2 ::
      its.map renderItem) ++ ['\n']) = _
    rw [joinSep_cons2]
    rw [show renderItem it ++ ['\n', '\n'] ++ joinSep ['\n', '\n']
        (renderItem it2 :: its.map renderItem) ++ ['\n'] =
      renderItem it ++ (['\n', '\n'] ++ (joinSep ['\n', '\n']
        (renderItem it2 :: its.map renderItem) ++ ['\n'])) from by
      simp [List.append_assoc]]
    cases it with
    | inl c =>
      show scanBlocks (renderComment c ++ _) = _
      rw [scanBlocks_skip_comment c (h (Sum.inl c) (by simp)),
        scanBlocks_skip_nonparen ['\n', '\n'] (by decide)]
      exact hrest
    | inr b =>
      show scanBlocks (renderBlock b ++ _) = _
      rw [scanBlocks_render_cons b _ (h (Sum.inr b) (by simp)),
        scanBlocks_skip_nonparen ['\n', '\n'] (by decide)]
      show wrapBlock b :: _ = itemBlocks (Sum.inr b :: it2 :: its)
      rw [hrest]
      rfl

theorem itemBlocks_inl_append : ∀ (cs : List (List Char))
    (its : List (List Char ⊕ JDATBlock)),
    itemBlocks (cs.map Sum.inl ++ its) = itemBlocks its
  | [], _ => rfl
  | _ :: cs, its => itemBlocks_inl_append cs its

theorem itemBlocks_inr : ∀ (bs : List JDATBlock),
    itemBlocks (bs.map Sum.inr) = bs.map wrapBlock
  | [] => rfl
  | b :: bs => by
    show wrapBlock b :: itemBlocks (bs.map Sum.inr) = _
    rw [itemBlocks_inr bs]
    rfl

/-- Scanning the serializer's output recovers every block, in order, with
all fields preserved and content wrapped in one newline on each side. -/
theorem scanBlocks_to_jdat (f : JDATFile) (hf : goodFile f = true) :
    scanBlocks ((f.to_jdat).1) = f.blocks.map wrapBlock := by
  simp only [goodFile, Bool.and_eq_true, List.all_eq_true] at hf
  obtain ⟨hbs, hcs⟩ := hf
  have hdata : ∀ b ∈ f.blocks, b.data = none := by
    intro b hb
    have := hbs b hb
    simp only [goodBlock, Bool.and_eq_true, beq_iff_eq] at this
    exact this.2
  have hout : (f.to_jdat).1 = joinSep ['\n', '\n']
      ((f.comments.map Sum.inl ++ f.blocks.map Sum.inr).map renderItem) ++ ['\n'] := by
    rw [JDATFile.to_jdat]
    simp only [serializeBlocks_eq f.blocks hdata, List.map_append, List.map_map]
    rfl
  rw [hout, scanBlocks_joinParts _ ?_, itemBlocks_inl_append, itemBlocks_inr]
  intro it hit
  rcases List.mem_append.mp hit with h' | h'
  · obtain ⟨c, hc, rfl⟩ := List.mem_map.mp h'
    exact hcs c hc
  · obtain ⟨b, hb, rfl⟩ := List.mem_map.mp h'
    exact hbs b hb

/-- **C7 (corrected), general part.**  For any text `T` whose parse is
well-formed (brace-free names/links/contents and paren-free comments —
"no nested braces"), re-parsing `serialize(parse(T))` yields a block list
identical to `parse(T)` in name, link, kind and encrypted flag, and in
content up to the extra `\n` the serializer wraps around it on each side
(`to_jdat` emits `{\n…content…\n})`, and the lazy capture keeps those two
newlines). -/
theorem serialize_parse_roundtrip (f g : JDATFile) (T : List Char)
    (h : goodFile (f.parseText T) = true) :
    (g.parseText (((f.parseText T).to_jdat).1)).blocks =
      (f.parseText T).blocks.map wrapBlock :=
  scanBlocks_to_jdat (f.parseText T) h

/-- Witness for `serialize_parse_roundtrip` on a concrete document with a
Structured block, a Raw block, an encrypted block and a comment. -/
theorem serialize_parse_roundtrip_witness :
    ((JDATFile.mk [] []).parseText
        ((((JDATFile.mk [] []).parseText
          "(\x7b<note>\x7d)\n\n(n:user l:u1 t:1 \x7b\n  name: Alice\n\x7d)\n\n(n:code l:c1 t:2\x7bprint\x7d)\n\n(n:sec l:s1 t:1 encrypted\x7bQUJD\x7d)".toList).to_jdat).1)).blocks =
      ((JDATFile.mk [] []).parseText
        "(\x7b<note>\x7d)\n\n(n:user l:u1 t:1 \x7b\n  name: Alice\n\x7d)\n\n(n:code l:c1 t:2\x7bprint\x7d)\n\n(n:sec l:s1 t:1 encrypted\x7bQUJD\x7d)".toList).blocks.map
        wrapBlock :=
  serialize_parse_roundtrip (JDATFile.mk [] []) (JDATFile.mk [] [])
    "(\x7b<note>\x7d)\n\n(n:user l:u1 t:1 \x7b\n  name: Alice\n\x7d)\n\n(n:code l:c1 t:2\x7bprint\x7d)\n\n(n:sec l:s1 t:1 encrypted\x7bQUJD\x7d)".toList
    (by decide)

/-- **C7 counterexample.**  On the concrete well-formed text
`(n:a l:b t:2{x})` the re-parse of the serialization does not restore the
block contents: the serializer emits `{\nx\n})`, so the re-parsed content
is `"\nx\n"`, not `"x"` — the claim that re-parsed blocks are identical
in `content` to those of the first parse is false. -/
theorem serialize_parse_changes_content :
    ((JDATFile.mk [] []).parseText
        ((((JDATFile.mk [] []).parseText
          "(n:a l:b t:2\x7bx\x7d)".toList).to_jdat).1)).blocks.map JDATBlock.content ≠
      ((JDATFile.mk [] []).parseText
        "(n:a l:b t:2\x7bx\x7d)".toList).blocks.map JDATBlock.content := by
  decide
